import Mathlib

set_option maxHeartbeats 1000000
set_option maxRecDepth 8000
set_option synthInstance.maxHeartbeats 400000

/- Shallow embedding of the conversation-indexing engine in
src/js/chat-indexer.js (class ChatIndexer).  JS strings are modelled as
lists of characters; JS `Map`s (which preserve insertion order) are
modelled as association lists updated in place; JS floating-point scores
are idealised as real numbers with `Real.log` for `Math.log`; the one
operation that could fail at runtime (indexing `this.chunks[id]`) is
modelled with `Option`. -/

abbrev Str := List Char

def spChar : Char := Char.ofNat 32

def nlChar : Char := Char.ofNat 10

/-- JS whitespace (the characters relevant to `trim` and the regex class
`\s`, ASCII part): space, tab, newline, carriage return, vertical tab,
form feed. -/
def jsWs (c : Char) : Bool :=
  c.toNat = 32 || c.toNat = 9 || c.toNat = 10 || c.toNat = 13 || c.toNat = 11 || c.toNat = 12

/-- JS `String.prototype.trim`: strip leading and trailing whitespace. -/
def jsTrim (s : Str) : Str :=
  ((s.dropWhile jsWs).reverse.dropWhile jsWs).reverse

/-- JS `toLowerCase` (ASCII behaviour suffices for this embedding). -/
def jsToLower (s : Str) : Str := s.map Char.toLower

def isLowerAlnum (c : Char) : Bool :=
  (97 ≤ c.toNat && c.toNat ≤ 122) || (48 ≤ c.toNat && c.toNat ≤ 57)

/-- One character of `.replace(/[^a-z0-9\s]/g, ' ')`. -/
def scrubChar (c : Char) : Char := if isLowerAlnum c || jsWs c then c else spChar

def scrub (s : Str) : Str := s.map scrubChar

def splitWsAux : Str → Str → List Str
  | [], acc => if acc.isEmpty then [] else [acc.reverse]
  | c :: rest, acc =>
    if jsWs c then
      (if acc.isEmpty then splitWsAux rest [] else acc.reverse :: splitWsAux rest [])
    else splitWsAux rest (c :: acc)

/-- `.split(/\s+/)` modulo empty tokens: a leading whitespace run makes the
JS split emit one empty string, which the `word.length > 2` filter below
removes again, so dropping empty tokens here is observationally equal. -/
def splitWs (s : Str) : List Str := splitWsAux s []

/-- The regex test `/^\d+$/` (tokens are nonempty by construction). -/
def isDigitStr (w : Str) : Bool := w.all (fun c => 48 ≤ c.toNat && c.toNat ≤ 57)

/-- The stop-word set of the ChatIndexer constructor. -/
def STOP_WORDS : List Str :=
  ([r"the", r"a", r"an", r"and", r"or", r"but", r"in", r"on", r"at", r"to", r"for",
    r"of", r"with", r"by", r"is", r"are", r"was", r"were", r"be", r"been", r"being",
    r"have", r"has", r"had", r"do", r"does", r"did", r"will", r"would", r"could",
    r"should", r"may", r"might", r"must", r"this", r"that", r"these", r"those",
    r"it", r"its", r"you", r"your", r"we", r"our", r"they", r"their", r"he", r"she",
    r"his", r"her", r"i", r"my", r"me", r"can", r"just", r"so", r"as", r"if", r"then",
    r"than", r"when", r"what", r"which", r"who", r"how", r"all", r"each", r"every",
    r"both", r"few", r"more", r"most", r"other", r"some", r"such", r"no", r"not",
    r"only", r"same", r"into", r"from", r"up", r"down", r"out", r"about", r"after",
    r"before", r"between", r"through", r"during", r"above", r"below"]).map String.data

/-- The word filter of `extractKeywords`. -/
def keepWord (w : Str) : Bool :=
  decide (2 < w.length) && !(STOP_WORDS.contains w) && !(isDigitStr w)

/-- One `wordFreq.set(word, (wordFreq.get(word) || 0) + 1)` step on an
insertion-ordered association list. -/
def bump (m : List (Str × Nat)) (w : Str) : List (Str × Nat) :=
  if (m.lookup w).isSome then m.map (fun p => if p.1 = w then (p.1, p.2 + 1) else p)
  else m ++ [(w, 1)]

/-- `extractKeywords` of chat-indexer.js. -/
def extractKeywords (text : Str) : List (Str × Nat) :=
  ((splitWs (scrub (jsToLower text))).filter keepWord).foldl bump []

/-- A stored chunk.  The source field `end` is a Lean keyword and is
renamed `stop` here. -/
structure Chunk where
  id : Nat
  text : Str
  start : Nat
  stop : Nat
  keywords : List (Str × Nat)
deriving DecidableEq

def CHUNK_SIZE : Nat := 800

def CHUNK_OVERLAP : Nat := 150

def TOP_K : Nat := 4

def MAX_CONTEXT_CHARS : Nat := 3000

def lastScan (needle : Str) (limit : Nat) : Str → Nat → Option Nat → Option Nat
  | [], i, best => if needle.isPrefixOf [] && decide (i ≤ limit) then some i else best
  | c :: rest, i, best =>
    lastScan needle limit rest (i + 1)
      (if needle.isPrefixOf (c :: rest) && decide (i ≤ limit) then some i else best)

/-- JS `content.lastIndexOf(needle, limit)`: the largest start position
`≤ limit` at which `needle` occurs (`none` for the JS result -1). -/
def jsLastIndexOf (s needle : Str) (limit : Nat) : Option Nat :=
  lastScan needle limit s 0 none

def bpUser : Str := nlChar :: nlChar :: (r"[USER]:").data

def bpAssistant : Str := nlChar :: nlChar :: (r"[ASSISTANT]:").data

def dotSp : Str := [Char.ofNat 46, spChar]

def BREAK_POINTS : List Str := [bpUser, bpAssistant, dotSp, [nlChar]]

/-- The `for (const bp of breakPoints)` fold of `createChunks`, with the
source's running `bestBreak` starting at -1. -/
def foldBreak (content : Str) (searchStart : Nat) (endPos : Nat) : Int :=
  BREAK_POINTS.foldl
    (fun bestBreak bp =>
      match jsLastIndexOf content bp endPos with
      | none => bestBreak
      | some pos =>
        if searchStart < pos ∧ bestBreak < (pos : Int) then
          (pos : Int) + (if bp = dotSp then 2 else (bp.length : Int))
        else bestBreak)
    (-1)

/-- The `end` offset computed by one iteration of the `createChunks`
loop: `min(start + CHUNK_SIZE, len)`, snapped forward to just after the
best break point when one is found past `start`. -/
def chunkEnd (content : Str) (start : Nat) : Nat :=
  let end0 := min (start + CHUNK_SIZE) content.length
  if end0 < content.length then
    let bestBreak := foldBreak content (max (start + CHUNK_SIZE - 100) start) end0
    if (start : Int) < bestBreak then bestBreak.toNat else end0
  else end0

/-- `content.substring(start, end).trim()` for one iteration. -/
def chunkText (content : Str) (start : Nat) : Str :=
  jsTrim ((content.drop start).take (chunkEnd content start - start))

/-- The chunks pushed by one iteration: one chunk when the trimmed text
is longer than 30 characters, none otherwise. -/
def chunkStored (content : Str) (start nextId : Nat) : List Chunk :=
  if 30 < (chunkText content start).length then
    [Chunk.mk nextId (chunkText content start) start (chunkEnd content start)
      (extractKeywords (chunkText content start))]
  else []

/-- `start = max(start + 1, end - CHUNK_OVERLAP)`.  The JS value
`end - CHUNK_OVERLAP` may be negative; truncated Nat subtraction agrees
because the `max` with `start + 1 ≥ 1` absorbs both cases. -/
def nextStart (content : Str) (start : Nat) : Nat :=
  max (start + 1) (chunkEnd content start - CHUNK_OVERLAP)

/-- The `while` loop of `createChunks`.  `fuel` models the remaining
iteration budget (`maxIterations = 5000`), `nextId` the length of the
chunk accumulator so far (the source pushes with `id: chunks.length`).
The break test `start >= content.length - 30` coincides with truncated
Nat subtraction because `start ≥ 0`. -/
def chunkLoopAux (content : Str) : Nat → Nat → Nat → List Chunk
  | 0, _, _ => []
  | fuel + 1, start, nextId =>
    if start < content.length then
      if content.length - 30 ≤ nextStart content start then chunkStored content start nextId
      else
        chunkStored content start nextId ++
          chunkLoopAux content fuel (nextStart content start)
            (nextId + (chunkStored content start nextId).length)
    else []

/-- `createChunks` of chat-indexer.js. -/
def createChunks (content : Str) : List Chunk := chunkLoopAux content 5000 0 0

/-- `this.keywordIndex.get(keyword).push(chunk.id)` preceded by the
missing-key initialisation. -/
def updatePostings (m : List (Str × List Nat)) (w : Str) (cid : Nat) : List (Str × List Nat) :=
  if (m.lookup w).isSome then m.map (fun p => if p.1 = w then (p.1, p.2 ++ [cid]) else p)
  else m ++ [(w, [cid])]

/-- The body of `buildKeywordIndex` for one chunk: walk its keyword map,
extending the inverted index and the document-frequency counter. -/
def addChunkToIndex (acc : List (Str × List Nat) × List (Str × Nat)) (c : Chunk) :
    List (Str × List Nat) × List (Str × Nat) :=
  c.keywords.foldl (fun a kv => (updatePostings a.1 kv.1 c.id, bump a.2 kv.1)) acc

/-- `buildKeywordIndex` of chat-indexer.js, as a pure function of the
chunk list (the source mutates the two freshly cleared maps). -/
def buildKeywordIndex (cs : List Chunk) : List (Str × List Nat) × List (Str × Nat) :=
  cs.foldl addChunkToIndex ([], [])

/-- Engine state: the four mutable fields of class ChatIndexer. -/
structure ChatIndexer where
  chunks : List Chunk
  keywordIndex : List (Str × List Nat)
  documentFrequency : List (Str × Nat)
  isIndexed : Bool
deriving DecidableEq

/-- The constructor state. -/
def ChatIndexer.init : ChatIndexer := ⟨[], [], [], false⟩

/-- `clear()` of chat-indexer.js. -/
def ChatIndexer.clear (_st : ChatIndexer) : ChatIndexer := ⟨[], [], [], false⟩

/-- One `{role, content}` message. -/
structure Msg where
  role : Str
  content : Str
deriving DecidableEq

def roleUser : Str := (r"user").data

/-- The template literal of `indexConversation`: a role label followed by
the message content. -/
def msgText (m : Msg) : Str :=
  (r"[").data ++ (if m.role = roleUser then (r"USER").data else (r"ASSISTANT").data) ++
    (r"]: ").data ++ m.content

/-- `.join('\n\n')` over the labelled messages. -/
def transcript (msgs : List Msg) : Str :=
  List.intercalate [nlChar, nlChar] (msgs.map msgText)

/-- `indexConversation` of chat-indexer.js.  `none` models a missing
(`undefined`/`null`) argument; the early return happens before any state
is touched. -/
def ChatIndexer.indexConversation (st : ChatIndexer) (messages : Option (List Msg)) :
    Nat × ChatIndexer :=
  match messages with
  | none => (0, st)
  | some msgs =>
    if msgs.isEmpty then (0, st)
    else
      let cs := createChunks (transcript msgs)
      let ki := buildKeywordIndex cs
      (cs.length, ⟨cs, ki.1, ki.2, true⟩)

/-- JS `x || 1` applied to `this.documentFrequency.get(queryWord)`:
`undefined` and `0` both give 1. -/
def jsOr1 (o : Option Nat) : Nat :=
  match o with
  | none => 1
  | some 0 => 1
  | some d => d

/-- The contribution of one query term `p` to a chunk's score:
`tf * idf * queryFreq` when the term is present in the chunk, else 0.
`Math.log` is idealised as `Real.log`. -/
noncomputable def termContrib (N : Nat) (df : List (Str × Nat)) (c : Chunk)
    (p : Str × Nat) : ℝ :=
  match c.keywords.lookup p.1 with
  | some tf => (tf : ℝ) * Real.log ((N : ℝ) / (jsOr1 (df.lookup p.1) : ℝ)) * (p.2 : ℝ)
  | none => 0

/-- One step of the `for (const [queryWord, queryFreq] of queryKeywords)`
accumulation in `search`. -/
noncomputable def scoreStep (N : Nat) (df : List (Str × Nat)) (c : Chunk)
    (acc : ℝ) (p : Str × Nat) : ℝ :=
  match c.keywords.lookup p.1 with
  | some tf => acc + (tf : ℝ) * Real.log ((N : ℝ) / (jsOr1 (df.lookup p.1) : ℝ)) * (p.2 : ℝ)
  | none => acc

/-- The TF-IDF score of one chunk against the query keywords, including
the recency boost `1 + (chunk.id / N) * 0.3`. -/
noncomputable def chunkScore (N : Nat) (df : List (Str × Nat)) (qk : List (Str × Nat))
    (c : Chunk) : ℝ :=
  (qk.foldl (scoreStep N df c) 0) * (1 + ((c.id : ℝ) / (N : ℝ)) * 0.3)

/-- The `scores` map of `search`: insertion order is chunk order, and only
strictly positive scores are recorded. -/
noncomputable def scoreList (st : ChatIndexer) (qk : List (Str × Nat)) : List (Nat × ℝ) :=
  st.chunks.filterMap
    (fun c =>
      let s := chunkScore st.chunks.length st.documentFrequency qk c
      if 0 < s then some (c.id, s) else none)

/-- JS `arr.slice(-k)` for a natural `k`: because `-0 === 0`, `k = 0`
yields the whole array, otherwise the last `min k len` elements. -/
def jsSliceNeg (l : List α) (k : Nat) : List α :=
  if k = 0 then l else l.drop (l.length - min k l.length)

/-- The `.map(([id, _]) => this.chunks[id])` step: in JS an out-of-range
id would produce `undefined` and make the subsequent `sort` throw, so it
is the engine's one failure point, modelled as `none`. -/
def mapIds (st : ChatIndexer) : List (Nat × ℝ) → Option (List Chunk)
  | [] => some []
  | p :: rest =>
    match st.chunks[p.1]? with
    | none => none
    | some c => (mapIds st rest).map (fun l => c :: l)

/-- `search` of chat-indexer.js.  The two JS `sort` calls (stable, by
descending score and then by ascending start offset) are modelled by
stable insertion sort. -/
noncomputable def ChatIndexer.search (st : ChatIndexer) (q : Str) (k : Nat) :
    Option (List Chunk) :=
  if st.isIndexed = false ∨ st.chunks.length = 0 then some []
  else
    let qk := extractKeywords q
    if qk.isEmpty then some (jsSliceNeg st.chunks k)
    else
      let picked :=
        mapIds st ((List.insertionSort (fun a b : Nat × ℝ => b.2 ≤ a.2) (scoreList st qk)).take k)
      picked.map (List.insertionSort (fun a b : Chunk => a.start ≤ b.start))

def sep2 : Str := [nlChar, nlChar]

def dots : Str := (r"...").data

def nlDots : Str := ([nlChar] ++ (r"...").data) ++ [nlChar]

/-- `context += (context ? '\n\n' : '') + chunk.text`. -/
def ctxStep (ctx : Str) (c : Chunk) : Str :=
  if ctx.isEmpty then c.text else ctx ++ sep2 ++ c.text

/-- The context-assembly loop of `getContextForQuery`: add chunk texts
separated by blank lines while they fit; on overflow append a truncated
tail guarded by `remaining > 50`, then stop. -/
def contextLoop : Str → List Chunk → Str
  | ctx, [] => ctx
  | ctx, c :: rest =>
    if MAX_CONTEXT_CHARS < ctx.length + c.text.length then
      let remaining : Int := (MAX_CONTEXT_CHARS : Int) - (ctx.length : Int) - 10
      if 50 < remaining then ctx ++ nlDots ++ c.text.take remaining.toNat ++ dots else ctx
    else contextLoop (ctxStep ctx c) rest

/-- `getContextForQuery` of chat-indexer.js (the empty-result early
return included). -/
noncomputable def ChatIndexer.getContextForQuery (st : ChatIndexer) (q : Str) : Option Str :=
  (st.search q TOP_K).map (fun cs => if cs.isEmpty then [] else contextLoop [] cs)

/-- The fold underlying `contextLoop` when nothing overflows; used to
speak about the running context reached at a given chunk. -/
def joinChunks (cs : List Chunk) : Str :=
  cs.foldl ctxStep []

/-- Every step of the assembly over `cs`, starting from `ctx`, stays
within the budget. -/
def fitsAux : Str → List Chunk → Bool
  | _, [] => true
  | ctx, c :: rest =>
    decide (ctx.length + c.text.length ≤ MAX_CONTEXT_CHARS) && fitsAux (ctxStep ctx c) rest

/-- States reachable through the engine's public operations. -/
inductive Reachable : ChatIndexer → Prop
  | init : Reachable ChatIndexer.init
  | index (st : ChatIndexer) (o : Option (List Msg)) :
      Reachable st → Reachable (st.indexConversation o).2
  | cleared (st : ChatIndexer) : Reachable st → Reachable st.clear

/- Concrete conversations used as witnesses and counterexamples.  All
contents are plain ASCII with no sentence terminators or newlines, so the
boundary-snapping search of `createChunks` finds no break point in them. -/

/-- A 23-character content; its transcript has exactly 31 characters, so
`createChunks` stores exactly one chunk `[0, 31)` and stops. -/
def msgSmall : Msg := ⟨roleUser, (r"elephant elephant elepp").data⟩

def stSmall : ChatIndexer := (ChatIndexer.init.indexConversation (some [msgSmall])).2

/-- Content whose 888-character transcript trims to 888 characters, yet
every chunk window of it trims to at most 30 characters: one non-blank
character, 850 blanks, then 29 non-blank characters. -/
def contentC3 : Str :=
  (r"x").data ++ List.replicate 850 spChar ++ List.replicate 29 (Char.ofNat 121)

def msgC3 : Msg := ⟨roleUser, contentC3⟩

/-- Content producing exactly two chunks `[0, 800)` and `[1300, 1630)`
with a gap between them: the overlap window `[650, 1450)` of the first
chunk trims to only 20 characters and is dropped. -/
def contentC5 : Str :=
  List.replicate 642 (Char.ofNat 97) ++ List.replicate 780 spChar ++
    List.replicate 40 (Char.ofNat 98) ++ List.replicate 160 spChar

def msgC5 : Msg := ⟨roleUser, contentC5⟩

def stC5 : ChatIndexer := (ChatIndexer.init.indexConversation (some [msgC5])).2

/-- Filler for the two-chunk conversation below. -/
def fillerC1 : Str := List.flatten (List.replicate 165 ((r"aaaa ").data))

/-- Content producing exactly two chunks, with the word `zebra` occurring
in the first chunk only. -/
def contentC1 : Str := (r"zebra ").data ++ fillerC1 ++ List.replicate 161 spChar

def msgC1 : Msg := ⟨roleUser, contentC1⟩

def stC1 : ChatIndexer := (ChatIndexer.init.indexConversation (some [msgC1])).2

def qZebra : Str := (r"zebra").data

def qThe : Str := (r"the").data

/-- A chunk with an 800-character text, used to exercise the context
budget. -/
def chunkW (i : Nat) : Chunk := ⟨i, List.replicate 800 (Char.ofNat 97), 0, 800, []⟩

/-- `this.documentFrequency.get(term)` read as a count (0 when absent). -/
def dfGet (m : List (Str × Nat)) (w : Str) : Nat := (m.lookup w).getD 0

/-- `this.keywordIndex.get(term)` read as a posting list ([] when
absent). -/
def postGet (m : List (Str × List Nat)) (w : Str) : List Nat := (m.lookup w).getD []

/-- `chunk.keywords.has(term)`. -/
def hasKw (c : Chunk) (w : Str) : Bool := (c.keywords.lookup w).isSome

/-- Well-formedness of a state: every stored chunk's id is its position
in the chunk array (what `push` with `id: chunks.length` guarantees). -/
def WF (st : ChatIndexer) : Prop :=
  ∀ (i : Nat) (h : i < st.chunks.length), (st.chunks.get ⟨i, h⟩).id = i

def wElephant : Str := (r"elephant").data

/-- The state produced by a successful rebuild on transcript `t`. -/
def indexedState (t : Str) : ChatIndexer :=
  ⟨createChunks t, (buildKeywordIndex (createChunks t)).1,
    (buildKeywordIndex (createChunks t)).2, true⟩

/-- The first chunk of the two-chunk conversation `msgC1`, spelled out
through the loop's own step functions. -/
def cZebra : Chunk :=
  ⟨0, chunkText (transcript [msgC1]) 0, 0, chunkEnd (transcript [msgC1]) 0,
    extractKeywords (chunkText (transcript [msgC1]) 0)⟩

/- Basic facts about the context assembler. -/

theorem nlDots_length : nlDots.length = 5 := rfl

theorem dots_length : dots.length = 3 := rfl

theorem ctxStep_length_le (ctx : Str) (c : Chunk) :
    (ctxStep ctx c).length ≤ ctx.length + 2 + c.text.length := by
  unfold ctxStep
  by_cases h : ctx.isEmpty
  · simp [h]
  · simp [h, sep2]
    omega

theorem contextLoop_length_le (cs : List Chunk) :
    ∀ ctx : Str, ctx.length ≤ MAX_CONTEXT_CHARS + 2 →
      (contextLoop ctx cs).length ≤ MAX_CONTEXT_CHARS + 2 := by
  induction cs with
  | nil => intro ctx h; simpa [contextLoop] using h
  | cons c rest ih =>
    intro ctx h
    simp only [contextLoop]
    by_cases hov : MAX_CONTEXT_CHARS < ctx.length + c.text.length
    · rw [if_pos hov]
      by_cases hrem :
          (50 : Int) < (MAX_CONTEXT_CHARS : Int) - (ctx.length : Int) - 10
      · rw [if_pos hrem]
        have htake :
            (c.text.take ((MAX_CONTEXT_CHARS : Int) - (ctx.length : Int) - 10).toNat).length ≤
              ((MAX_CONTEXT_CHARS : Int) - (ctx.length : Int) - 10).toNat := by
          simp [List.length_take]
        simp only [List.length_append, nlDots_length, dots_length]
        simp only [MAX_CONTEXT_CHARS] at hrem htake ⊢
        omega
      · rw [if_neg hrem]
        exact h
    · rw [if_neg hov]
      refine ih _ ?_
      have := ctxStep_length_le ctx c
      simp only [MAX_CONTEXT_CHARS] at hov ⊢
      omega

/-- C7: for every engine state and query, the context string returned by
`getContextForQuery` has length at most `MAX_CONTEXT_CHARS` plus two
characters of separator slack (well within the "fixed ellipsis overhead"
the claim allows). -/
theorem claim_C7 (st : ChatIndexer) (q : Str) (r : Str)
    (h : st.getContextForQuery q = some r) : r.length ≤ MAX_CONTEXT_CHARS + 2 := by
  unfold ChatIndexer.getContextForQuery at h
  rcases Option.map_eq_some'.mp h with ⟨cs, _, hr⟩
  subst hr
  by_cases hcs : cs.isEmpty
  · simp [hcs]
  · simp only [hcs, if_false]
    exact contextLoop_length_le cs [] (by simp)

/-- Witness for C7 at the initial state and the empty query. -/
theorem claim_C7_witness :
    ChatIndexer.init.getContextForQuery [] = some [] ∧
      ([] : Str).length ≤ MAX_CONTEXT_CHARS + 2 := by
  have h : ChatIndexer.init.getContextForQuery [] = some [] := by
    simp [ChatIndexer.getContextForQuery, ChatIndexer.search, ChatIndexer.init]
  exact ⟨h, claim_C7 _ _ _ h⟩

/-- C2 (amended): `indexConversation` with an absent or empty message
list returns 0 and leaves the state completely unchanged — in particular
the `isIndexed` flag keeps whatever value it had; it is not reset. -/
theorem claim_C2 (st : ChatIndexer) (o : Option (List Msg))
    (h : o = none ∨ o = some []) : st.indexConversation o = (0, st) := by
  rcases h with h | h <;> subst h <;> rfl

/-- Witness for C2 at the initial state and an absent argument. -/
theorem claim_C2_witness :
    ((none : Option (List Msg)) = none ∨ (none : Option (List Msg)) = some []) ∧
      ChatIndexer.init.indexConversation none = (0, ChatIndexer.init) :=
  ⟨Or.inl rfl, claim_C2 ChatIndexer.init none (Or.inl rfl)⟩

/-- Counterexample to C2 as stated: after indexing a real conversation
the engine is indexed, and a subsequent `indexConversation` with an empty
list returns 0 but leaves the `isIndexed` flag `true`, not `false`. -/
theorem claim_C2_cex :
    (stSmall.indexConversation (some [])).1 = 0 ∧
      (stSmall.indexConversation (some [])).2.isIndexed = true := by
  constructor
  · rfl
  · decide

/-- C8: re-running `indexConversation` on the state it itself produced,
with the same messages, returns the same count and rebuilds the identical
state (hence identical chunk ids, texts and offsets). -/
theorem claim_C8 (st : ChatIndexer) (o : Option (List Msg)) :
    ((st.indexConversation o).2).indexConversation o = st.indexConversation o := by
  match o with
  | none => rfl
  | some [] => rfl
  | some (m :: ms) => rfl

/- Unfolding helpers for `indexConversation` and the branches of
`search`. -/

theorem indexConversation_nonempty (st : ChatIndexer) (msgs : List Msg) (h : msgs ≠ []) :
    st.indexConversation (some msgs) =
      ((createChunks (transcript msgs)).length,
        ⟨createChunks (transcript msgs),
          (buildKeywordIndex (createChunks (transcript msgs))).1,
          (buildKeywordIndex (createChunks (transcript msgs))).2, true⟩) := by
  unfold ChatIndexer.indexConversation
  simp [List.isEmpty_iff, h]

theorem search_guard (st : ChatIndexer) (q : Str) (k : Nat)
    (h : st.isIndexed = false ∨ st.chunks.length = 0) : st.search q k = some [] := by
  unfold ChatIndexer.search
  rw [if_pos h]

theorem search_fallback (st : ChatIndexer) (q : Str) (k : Nat)
    (h1 : st.isIndexed = true) (h2 : st.chunks ≠ []) (h3 : extractKeywords q = []) :
    st.search q k = some (jsSliceNeg st.chunks k) := by
  have hneg : ¬ (st.isIndexed = false ∨ st.chunks.length = 0) := by
    simp [h1, List.length_eq_zero, h2]
  unfold ChatIndexer.search
  rw [if_neg hneg]
  simp [h3]

/-- C6 (amended): in an indexed, non-empty state, a query with no
extractable keywords makes `search` return the last `min topK count`
chunks in original document order — provided `topK ≥ 1`.  (For `topK = 0`
the source's `slice(-topK)` is `slice(0)` and returns every chunk.) -/
theorem claim_C6 (st : ChatIndexer) (q : Str) (k : Nat)
    (h1 : st.isIndexed = true) (h2 : st.chunks ≠ []) (h3 : extractKeywords q = [])
    (hk : 1 ≤ k) :
    st.search q k = some (st.chunks.drop (st.chunks.length - min k st.chunks.length)) := by
  rw [search_fallback st q k h1 h2 h3]
  unfold jsSliceNeg
  rw [if_neg (by omega)]

/-- Witness for C6: the one-chunk state, a pure stop-word query, and
`topK = 1`. -/
theorem claim_C6_witness :
    (stSmall.isIndexed = true ∧ stSmall.chunks ≠ [] ∧ extractKeywords qThe = [] ∧ 1 ≤ 1) ∧
      stSmall.search qThe 1 =
        some (stSmall.chunks.drop (stSmall.chunks.length - min 1 stSmall.chunks.length)) := by
  refine ⟨⟨by decide, by decide, by decide, le_refl 1⟩, ?_⟩
  exact claim_C6 stSmall qThe 1 (by decide) (by decide) (by decide) (le_refl 1)

/-- Counterexample to C6 as stated: with `topK = 0` the claim demands the
last zero chunks, i.e. `[]`, but `slice(-0)` returns the whole chunk
array — here one chunk. -/
theorem claim_C6_cex :
    extractKeywords qThe = [] ∧ stSmall.isIndexed = true ∧ stSmall.chunks.length = 1 ∧
      stSmall.search qThe 0 = some stSmall.chunks ∧ stSmall.chunks ≠ [] := by
  refine ⟨by decide, by decide, by decide, ?_, by decide⟩
  rw [search_fallback stSmall qThe 0 (by decide) (by decide) (by decide)]
  simp [jsSliceNeg]

/- Order of the stored chunks: the loop advances `start` by at least one
each iteration, so stored start offsets strictly increase. -/

theorem chunkStored_mem (content : Str) (start nextId : Nat) (c : Chunk)
    (hc : c ∈ chunkStored content start nextId) :
    c = Chunk.mk nextId (chunkText content start) start (chunkEnd content start)
        (extractKeywords (chunkText content start)) ∧
      30 < (chunkText content start).length := by
  by_cases h : 30 < (chunkText content start).length
  · unfold chunkStored at hc
    rw [if_pos h] at hc
    simp at hc
    exact ⟨hc, h⟩
  · unfold chunkStored at hc
    rw [if_neg h] at hc
    simp at hc

theorem nextStart_lt (content : Str) (start : Nat) : start < nextStart content start := by
  unfold nextStart
  exact lt_of_lt_of_le (Nat.lt_succ_self start) (Nat.le_max_left _ _)

theorem chunkLoopAux_start_le (content : Str) :
    ∀ (fuel start nextId : Nat), ∀ c ∈ chunkLoopAux content fuel start nextId,
      start ≤ c.start := by
  intro fuel
  induction fuel with
  | zero => intro start nextId c hc; simp [chunkLoopAux] at hc
  | succ n ih =>
    intro start nextId c hc
    simp only [chunkLoopAux] at hc
    by_cases hlt : start < content.length
    · rw [if_pos hlt] at hc
      by_cases hbr : content.length - 30 ≤ nextStart content start
      · rw [if_pos hbr] at hc
        rw [(chunkStored_mem content start nextId c hc).1]
      · rw [if_neg hbr, List.mem_append] at hc
        rcases hc with hc | hc
        · rw [(chunkStored_mem content start nextId c hc).1]
        · have h2 := ih _ _ c hc
          have h3 := nextStart_lt content start
          omega
    · rw [if_neg hlt] at hc
      simp at hc

theorem chunkLoopAux_chain (content : Str) :
    ∀ (fuel start nextId : Nat),
      List.Chain' (fun a b : Chunk => a.start < b.start)
        (chunkLoopAux content fuel start nextId) := by
  intro fuel
  induction fuel with
  | zero => intro start nextId; simp [chunkLoopAux]
  | succ n ih =>
    intro start nextId
    simp only [chunkLoopAux]
    by_cases hlt : start < content.length
    · rw [if_pos hlt]
      by_cases hbr : content.length - 30 ≤ nextStart content start
      · rw [if_pos hbr]
        unfold chunkStored
        split <;> simp
      · rw [if_neg hbr]
        by_cases hkeep : 30 < (chunkText content start).length
        · unfold chunkStored
          rw [if_pos hkeep, List.singleton_append, List.chain'_cons']
          refine ⟨?_, ih _ _⟩
          intro y hy
          have hmem := List.mem_of_mem_head? hy
          have h2 := chunkLoopAux_start_le content n _ _ y hmem
          have h3 := nextStart_lt content start
          show start < y.start
          omega
        · unfold chunkStored
          rw [if_neg hkeep, List.nil_append]
          exact ih _ _
    · rw [if_neg hlt]
      simp

/-- C5 (amended): in any state built by `indexConversation`, consecutive
stored chunks have strictly increasing `start` offsets.  The claimed
overlap bound `chunk[i+1].start ≤ chunk[i].end` does not hold in general
(see the counterexample): when intermediate windows are dropped for
trimming to ≤ 30 characters, the next stored chunk can start past the
previous chunk's end. -/
theorem claim_C5 (msgs : List Msg) (st : ChatIndexer)
    (hne : msgs ≠ []) (hst : st = (ChatIndexer.init.indexConversation (some msgs)).2) :
    List.Chain' (fun a b : Chunk => a.start < b.start) st.chunks := by
  subst hst
  rw [indexConversation_nonempty _ _ hne]
  exact chunkLoopAux_chain _ _ _ _

/-- Witness for C5 on the one-chunk conversation. -/
theorem claim_C5_witness :
    ([msgSmall] ≠ ([] : List Msg)) ∧
      List.Chain' (fun a b : Chunk => a.start < b.start) stSmall.chunks :=
  ⟨by simp, claim_C5 [msgSmall] stSmall (by simp) rfl⟩

/-- Counterexample to C5 as stated: in the state built from `msgC5` the
two stored chunks are `[0, 800)` and `[1300, 1630)`, so
`chunk[1].start = 1300 > 800 = chunk[0].end` and the claimed overlap
chain fails. -/
theorem claim_C5_cex :
    ¬ List.Chain' (fun a b : Chunk => b.start ≤ a.stop ∧ a.start < b.start) stC5.chunks := by
  intro h
  have hmap : stC5.chunks.map (fun c => (c.start, c.stop)) = [(0, 800), (1300, 1630)] := by
    decide
  obtain ⟨c0, c1, hcs⟩ : ∃ c0 c1, stC5.chunks = [c0, c1] := by
    cases hcs : stC5.chunks with
    | nil => rw [hcs] at hmap; simp at hmap
    | cons a t =>
      cases t with
      | nil => rw [hcs] at hmap; simp at hmap
      | cons b t2 =>
        cases t2 with
        | nil => exact ⟨a, b, rfl⟩
        | cons c t3 => rw [hcs] at hmap; simp at hmap
  rw [hcs] at h hmap
  simp only [List.map_cons, List.map_nil, List.cons.injEq, Prod.mk.injEq] at hmap
  rw [List.chain'_cons'] at h
  have hle : c1.start ≤ c0.stop := (h.1 c1 rfl).1
  omega

/- Trimming is monotone with respect to the infix order; hence a window
of a transcript never trims to something longer than the trimmed
transcript.  This drives the zero-chunk analysis of C3. -/

theorem dropWhile_head_false (p : Char → Bool) :
    ∀ (l : Str) (a : Char) (t : Str), l.dropWhile p = a :: t → p a = false := by
  intro l
  induction l with
  | nil => intro a t h; simp [List.dropWhile] at h
  | cons c cs ih =>
    intro a t h
    rw [List.dropWhile_cons] at h
    by_cases hp : p c = true
    · rw [if_pos hp] at h
      exact ih a t h
    · rw [if_neg hp] at h
      cases h
      simpa using hp

theorem infix_dropWhile (p : Char → Bool) (y s : Str) (hin : y <:+: s)
    (a : Char) (t : Str) (hy : y = a :: t) (ha : p a = false) :
    y <:+: s.dropWhile p := by
  obtain ⟨u, v, huv⟩ := hin
  rw [← huv, List.append_assoc, List.dropWhile_append]
  by_cases hu : (u.dropWhile p).isEmpty = true
  · rw [if_pos hu, List.dropWhile_append]
    have hyd : y.dropWhile p = y := by
      rw [hy, List.dropWhile_cons, if_neg (by simp [ha])]
    rw [hyd]
    have hyne : y.isEmpty = false := by rw [hy]; rfl
    rw [hyne]
    simp only [Bool.false_eq_true, if_false]
    exact (List.prefix_append y v).isInfix
  · rw [if_neg hu]
    exact ⟨u.dropWhile p, v, by rw [List.append_assoc]⟩

theorem jsTrim_within (s : Str) : jsTrim s <:+: s := by
  have h2 : ((s.dropWhile jsWs).reverse.dropWhile jsWs) <:+ (s.dropWhile jsWs).reverse :=
    List.dropWhile_suffix jsWs
  have h3 :
      ((s.dropWhile jsWs).reverse.dropWhile jsWs).reverse <+:
        (s.dropWhile jsWs).reverse.reverse := List.reverse_prefix.mpr h2
  rw [List.reverse_reverse] at h3
  exact h3.isInfix.trans (List.dropWhile_suffix jsWs).isInfix

theorem jsTrim_prefix_dropWhile (s : Str) : jsTrim s <+: s.dropWhile jsWs := by
  have h2 : ((s.dropWhile jsWs).reverse.dropWhile jsWs) <:+ (s.dropWhile jsWs).reverse :=
    List.dropWhile_suffix jsWs
  have h3 :
      ((s.dropWhile jsWs).reverse.dropWhile jsWs).reverse <+:
        (s.dropWhile jsWs).reverse.reverse := List.reverse_prefix.mpr h2
  rw [List.reverse_reverse] at h3
  exact h3

theorem jsTrim_shape (x : Str) (hne : jsTrim x ≠ []) :
    ∃ a t, jsTrim x = a :: t ∧ jsWs a = false ∧
      ∃ b t', (jsTrim x).reverse = b :: t' ∧ jsWs b = false := by
  have hrev : (jsTrim x).reverse = (x.dropWhile jsWs).reverse.dropWhile jsWs := by
    unfold jsTrim
    rw [List.reverse_reverse]
  cases hx : jsTrim x with
  | nil => exact absurd hx hne
  | cons a t =>
    have hpre := jsTrim_prefix_dropWhile x
    rw [hx] at hpre
    obtain ⟨w, hw⟩ := hpre
    have ha : jsWs a = false := by
      refine dropWhile_head_false jsWs x a (t ++ w) ?_
      rw [← hw]
      simp
    cases hr : (jsTrim x).reverse with
    | nil =>
      rw [hx] at hr
      simp at hr
    | cons b t' =>
      refine ⟨a, t, rfl, ha, b, t', ?_, ?_⟩
      · rw [hx] at hr
        exact hr
      · rw [hrev] at hr
        exact dropWhile_head_false jsWs (x.dropWhile jsWs).reverse b t' hr

theorem jsTrim_infix_mono (x s : Str) (hin : x <:+: s) : jsTrim x <:+: jsTrim s := by
  by_cases hne : jsTrim x = []
  · rw [hne]
    exact ⟨[], jsTrim s, by simp⟩
  · obtain ⟨a, t, hat, ha, b, t', hbt, hb⟩ := jsTrim_shape x hne
    have hxs : jsTrim x <:+: s := (jsTrim_within x).trans hin
    have h1 : jsTrim x <:+: s.dropWhile jsWs := infix_dropWhile jsWs _ _ hxs a t hat ha
    have h1r : (jsTrim x).reverse <:+: (s.dropWhile jsWs).reverse := List.reverse_infix.mpr h1
    have h2 : (jsTrim x).reverse <:+: (s.dropWhile jsWs).reverse.dropWhile jsWs :=
      infix_dropWhile jsWs _ _ h1r b t' hbt hb
    have h3 :
        (jsTrim x).reverse.reverse <:+:
          ((s.dropWhile jsWs).reverse.dropWhile jsWs).reverse := List.reverse_infix.mpr h2
    rw [List.reverse_reverse] at h3
    exact h3

theorem jsTrim_window_length_le (s : Str) (a b : Nat) :
    (jsTrim ((s.drop a).take b)).length ≤ (jsTrim s).length := by
  have hsub : (s.drop a).take b <:+: s :=
    ⟨s.take a, (s.drop a).drop b,
      by rw [List.append_assoc, List.take_append_drop, List.take_append_drop]⟩
  exact (jsTrim_infix_mono _ _ hsub).sublist.length_le

theorem chunkLoopAux_nil_of_trim_short (content : Str)
    (hshort : (jsTrim content).length ≤ 30) :
    ∀ (fuel start nextId : Nat), chunkLoopAux content fuel start nextId = [] := by
  intro fuel
  induction fuel with
  | zero => intro start nextId; simp [chunkLoopAux]
  | succ n ih =>
    intro start nextId
    have hstored : chunkStored content start nextId = [] := by
      unfold chunkStored
      rw [if_neg ?_]
      have := jsTrim_window_length_le content start (chunkEnd content start - start)
      unfold chunkText
      omega
    simp only [chunkLoopAux]
    by_cases hlt : start < content.length
    · rw [if_pos hlt]
      by_cases hbr : content.length - 30 ≤ nextStart content start
      · rw [if_pos hbr]
        exact hstored
      · rw [if_neg hbr, hstored, List.nil_append]
        exact ih _ _
    · rw [if_neg hlt]

/-- C3 (amended): for non-empty messages the returned count always
equals the number of stored chunks, and the count is 0 whenever the
role-labelled transcript trims to at most 30 characters.  The converse
("0 only when ≤ 30") is false — see the counterexample: a long transcript
whose every window trims short also yields 0 chunks. -/
theorem claim_C3 (st : ChatIndexer) (msgs : List Msg) (hne : msgs ≠ []) :
    (st.indexConversation (some msgs)).1 =
        (st.indexConversation (some msgs)).2.chunks.length ∧
      ((jsTrim (transcript msgs)).length ≤ 30 → (st.indexConversation (some msgs)).1 = 0) := by
  rw [indexConversation_nonempty st msgs hne]
  refine ⟨rfl, ?_⟩
  intro hsh
  unfold createChunks
  rw [chunkLoopAux_nil_of_trim_short _ hsh]
  rfl

/-- Witness for C3 on the one-chunk conversation. -/
theorem claim_C3_witness :
    ([msgSmall] ≠ ([] : List Msg)) ∧
      ((ChatIndexer.init.indexConversation (some [msgSmall])).1 =
          (ChatIndexer.init.indexConversation (some [msgSmall])).2.chunks.length ∧
        ((jsTrim (transcript [msgSmall])).length ≤ 30 →
          (ChatIndexer.init.indexConversation (some [msgSmall])).1 = 0)) :=
  ⟨by simp, claim_C3 ChatIndexer.init [msgSmall] (by simp)⟩

/-- Counterexample to C3 as stated: the conversation `msgC3` has a
non-empty transcript that trims to 888 characters — far more than 30 —
yet `indexConversation` stores no chunk and returns 0, because every
window of the transcript trims to at most 30 characters. -/
theorem claim_C3_cex :
    (ChatIndexer.init.indexConversation (some [msgC3])).1 = 0 ∧
      30 < (jsTrim (transcript [msgC3])).length := by
  constructor
  · decide
  · decide

/- Association-list algebra for the insertion-ordered JS Maps. -/

theorem lookup_cons_self {β : Type} (k : Str) (v : β) (m : List (Str × β)) :
    List.lookup k ((k, v) :: m) = some v := by
  simp [List.lookup_cons]

theorem lookup_cons_ne {β : Type} (k w : Str) (v : β) (m : List (Str × β)) (h : w ≠ k) :
    List.lookup w ((k, v) :: m) = List.lookup w m := by
  have hb : (w == k) = false := beq_eq_false_iff_ne.mpr h
  rw [List.lookup_cons, hb]

theorem lookup_map_update {β : Type} (f : β → β) (w : Str) (m : List (Str × β)) :
    List.lookup w (m.map (fun p => if p.1 = w then (p.1, f p.2) else p)) =
      (List.lookup w m).map f := by
  induction m with
  | nil => simp
  | cons p rest ih =>
    rcases p with ⟨k, v⟩
    rw [List.map_cons]
    by_cases h : k = w
    · subst h
      have hfv : (if (k, v).1 = k then ((k, v).1, f (k, v).2) else (k, v)) = (k, f v) := by
        simp
      rw [hfv, lookup_cons_self, lookup_cons_self]
      rfl
    · have hfv : (if (k, v).1 = w then ((k, v).1, f (k, v).2) else (k, v)) = (k, v) := by
        simp [h]
      rw [hfv, lookup_cons_ne k w v _ (Ne.symm h), lookup_cons_ne k w v rest (Ne.symm h), ih]

theorem lookup_map_update_ne {β : Type} (f : β → β) (w w' : Str) (m : List (Str × β))
    (h : w' ≠ w) :
    List.lookup w' (m.map (fun p => if p.1 = w then (p.1, f p.2) else p)) =
      List.lookup w' m := by
  induction m with
  | nil => simp
  | cons p rest ih =>
    rcases p with ⟨k, v⟩
    rw [List.map_cons]
    by_cases hk : k = w
    · subst hk
      have hfv : (if (k, v).1 = k then ((k, v).1, f (k, v).2) else (k, v)) = (k, f v) := by
        simp
      rw [hfv, lookup_cons_ne k w' (f v) _ h, lookup_cons_ne k w' v rest h, ih]
    · have hfv : (if (k, v).1 = w then ((k, v).1, f (k, v).2) else (k, v)) = (k, v) := by
        simp [hk]
      by_cases hk' : w' = k
      · subst hk'
        rw [hfv, lookup_cons_self, lookup_cons_self]
      · rw [hfv, lookup_cons_ne k w' v _ hk', lookup_cons_ne k w' v rest hk', ih]

theorem lookup_append_singleton_ne {β : Type} (m : List (Str × β)) (w w' : Str) (v : β)
    (h : w' ≠ w) : List.lookup w' (m ++ [(w, v)]) = List.lookup w' m := by
  induction m with
  | nil => rw [List.nil_append, lookup_cons_ne w w' v [] h]
  | cons p rest ih =>
    rcases p with ⟨k, u⟩
    by_cases hk : w' = k
    · subst hk
      rw [List.cons_append, lookup_cons_self, lookup_cons_self]
    · rw [List.cons_append, lookup_cons_ne k w' u _ hk, lookup_cons_ne k w' u rest hk]
      exact ih

theorem lookup_append_singleton_self {β : Type} (m : List (Str × β)) (w : Str) (v : β)
    (h : List.lookup w m = none) : List.lookup w (m ++ [(w, v)]) = some v := by
  induction m with
  | nil => simp [lookup_cons_self]
  | cons p rest ih =>
    rcases p with ⟨k, u⟩
    by_cases hk : w = k
    · subst hk
      rw [lookup_cons_self] at h
      exact absurd h (by simp)
    · rw [lookup_cons_ne k w u rest hk] at h
      rw [List.cons_append, lookup_cons_ne k w u _ hk]
      exact ih h

theorem lookup_eq_none_iff {β : Type} (m : List (Str × β)) (w : Str) :
    List.lookup w m = none ↔ w ∉ m.map Prod.fst := by
  induction m with
  | nil => simp
  | cons p rest ih =>
    rcases p with ⟨k, v⟩
    by_cases hk : w = k
    · subst hk
      rw [lookup_cons_self]
      simp
    · rw [lookup_cons_ne k w v rest hk]
      simp [hk, ih]

theorem dfGet_bump_self (m : List (Str × Nat)) (w : Str) :
    dfGet (bump m w) w = dfGet m w + 1 := by
  unfold bump dfGet
  cases hm : List.lookup w m with
  | none =>
    rw [if_neg (by simp [hm])]
    rw [lookup_append_singleton_self m w 1 hm]
    simp
  | some v =>
    rw [if_pos (by simp [hm])]
    rw [lookup_map_update (fun x => x + 1) w m, hm]
    simp

theorem dfGet_bump_ne (m : List (Str × Nat)) (w w' : Str) (h : w' ≠ w) :
    dfGet (bump m w) w' = dfGet m w' := by
  unfold bump dfGet
  by_cases hm : (List.lookup w m).isSome
  · rw [if_pos hm, lookup_map_update_ne (fun x => x + 1) w w' m h]
  · rw [if_neg hm, lookup_append_singleton_ne m w w' 1 h]

theorem postGet_up_self (m : List (Str × List Nat)) (w : Str) (cid : Nat) :
    postGet (updatePostings m w cid) w = postGet m w ++ [cid] := by
  unfold updatePostings postGet
  cases hm : List.lookup w m with
  | none =>
    rw [if_neg (by simp [hm])]
    rw [lookup_append_singleton_self m w [cid] hm]
    simp
  | some v =>
    rw [if_pos (by simp [hm])]
    rw [lookup_map_update (fun x => x ++ [cid]) w m, hm]
    simp

theorem postGet_up_ne (m : List (Str × List Nat)) (w w' : Str) (cid : Nat) (h : w' ≠ w) :
    postGet (updatePostings m w cid) w' = postGet m w' := by
  unfold updatePostings postGet
  by_cases hm : (List.lookup w m).isSome
  · rw [if_pos hm, lookup_map_update_ne (fun x => x ++ [cid]) w w' m h]
  · rw [if_neg hm, lookup_append_singleton_ne m w w' [cid] h]

/- Keys of the keyword frequency map are distinct. -/

theorem map_update_keys {β : Type} (f : β → β) (w : Str) (m : List (Str × β)) :
    (m.map (fun p => if p.1 = w then (p.1, f p.2) else p)).map Prod.fst = m.map Prod.fst := by
  induction m with
  | nil => rfl
  | cons p rest ih =>
    rcases p with ⟨k, v⟩
    by_cases h : k = w <;> simp [h, ih]

theorem bump_keys_nodup (m : List (Str × Nat)) (w : Str)
    (h : (m.map Prod.fst).Nodup) : ((bump m w).map Prod.fst).Nodup := by
  unfold bump
  by_cases hm : (List.lookup w m).isSome
  · rw [if_pos hm, map_update_keys (fun x => x + 1) w m]
    exact h
  · rw [if_neg hm]
    have hw : w ∉ m.map Prod.fst := by
      rw [← lookup_eq_none_iff]
      exact Option.not_isSome_iff_eq_none.mp hm
    simp [List.nodup_append, h, hw]

theorem foldl_bump_keys_nodup :
    ∀ (ws : List Str) (m : List (Str × Nat)), (m.map Prod.fst).Nodup →
      ((ws.foldl bump m).map Prod.fst).Nodup := by
  intro ws
  induction ws with
  | nil => intro m h; exact h
  | cons v rest ih =>
    intro m h
    exact ih (bump m v) (bump_keys_nodup m v h)

theorem extractKeywords_keys_nodup (t : Str) :
    ((extractKeywords t).map Prod.fst).Nodup := by
  unfold extractKeywords
  exact foldl_bump_keys_nodup _ [] (by simp)

theorem hasKw_iff_mem (c : Chunk) (w : Str) :
    hasKw c w = true ↔ w ∈ c.keywords.map Prod.fst := by
  unfold hasKw
  rw [Option.isSome_iff_ne_none]
  constructor
  · intro h
    by_contra hmem
    exact h ((lookup_eq_none_iff c.keywords w).mpr hmem)
  · intro h hn
    exact ((lookup_eq_none_iff c.keywords w).mp hn) h

/- The inverted-index fold: processing one chunk appends its id to the
posting list of each of its (distinct) keywords and bumps each document
frequency exactly once. -/

theorem foldkw_post (cid : Nat) (w : Str) :
    ∀ (kvs : List (Str × Nat)) (acc : List (Str × List Nat) × List (Str × Nat)),
      (kvs.map Prod.fst).Nodup →
      postGet (kvs.foldl (fun a kv => (updatePostings a.1 kv.1 cid, bump a.2 kv.1)) acc).1 w =
          postGet acc.1 w ++ (if w ∈ kvs.map Prod.fst then [cid] else []) ∧
        dfGet (kvs.foldl (fun a kv => (updatePostings a.1 kv.1 cid, bump a.2 kv.1)) acc).2 w =
          dfGet acc.2 w + (if w ∈ kvs.map Prod.fst then 1 else 0) := by
  intro kvs
  induction kvs with
  | nil => intro acc _; simp
  | cons kv rest ih =>
    intro acc hnd
    rcases kv with ⟨k, v⟩
    simp only [List.map_cons, List.nodup_cons] at hnd
    simp only [List.foldl_cons]
    have hrec := ih (updatePostings acc.1 k cid, bump acc.2 k) hnd.2
    by_cases hw : w = k
    · subst hw
      have hnotin : w ∉ rest.map Prod.fst := hnd.1
      rw [if_neg hnotin, if_neg hnotin] at hrec
      have hmem : w ∈ (w :: rest.map Prod.fst) := by simp
      constructor
      · rw [hrec.1, postGet_up_self]
        simp [hmem]
      · rw [hrec.2, dfGet_bump_self]
        simp [hmem]
    · have hiff : (w ∈ k :: List.map Prod.fst rest) ↔ w ∈ List.map Prod.fst rest := by
        simp [List.mem_cons, hw]
      constructor
      · rw [hrec.1, postGet_up_ne acc.1 k w cid hw]
        simp only [List.map_cons]
        rw [if_congr hiff rfl rfl]
      · rw [hrec.2, dfGet_bump_ne acc.2 k w hw]
        simp only [List.map_cons]
        rw [if_congr hiff rfl rfl]

theorem addChunkToIndex_post (c : Chunk) (acc : List (Str × List Nat) × List (Str × Nat))
    (w : Str) (hnd : (c.keywords.map Prod.fst).Nodup) :
    postGet (addChunkToIndex acc c).1 w =
        postGet acc.1 w ++ (if hasKw c w then [c.id] else []) ∧
      dfGet (addChunkToIndex acc c).2 w =
        dfGet acc.2 w + (if hasKw c w then 1 else 0) := by
  unfold addChunkToIndex
  have h := foldkw_post c.id w c.keywords acc hnd
  by_cases hkw : hasKw c w = true
  · have hm : w ∈ c.keywords.map Prod.fst := (hasKw_iff_mem c w).mp hkw
    rw [if_pos hm, if_pos hm] at h
    rw [if_pos hkw, if_pos hkw]
    exact h
  · have hm : w ∉ c.keywords.map Prod.fst := fun hmem =>
      hkw ((hasKw_iff_mem c w).mpr hmem)
    rw [if_neg hm, if_neg hm] at h
    rw [if_neg hkw, if_neg hkw]
    simpa using h

theorem buildIndex_spec (w : Str) :
    ∀ (cs : List Chunk) (acc : List (Str × List Nat) × List (Str × Nat)),
      (∀ c ∈ cs, (c.keywords.map Prod.fst).Nodup) →
      postGet (cs.foldl addChunkToIndex acc).1 w =
          postGet acc.1 w ++ (cs.filter (fun c => hasKw c w)).map Chunk.id ∧
        dfGet (cs.foldl addChunkToIndex acc).2 w =
          dfGet acc.2 w + (cs.filter (fun c => hasKw c w)).length := by
  intro cs
  induction cs with
  | nil => intro acc _; simp
  | cons c rest ih =>
    intro acc hall
    simp only [List.foldl_cons]
    have hc := addChunkToIndex_post c acc w (hall c (by simp))
    have hr := ih (addChunkToIndex acc c) (fun c' h' => hall c' (by simp [h']))
    by_cases hkw : hasKw c w = true
    · constructor
      · rw [hr.1, hc.1, if_pos hkw]
        simp [List.filter_cons, hkw]
      · rw [hr.2, hc.2, if_pos hkw]
        simp [List.filter_cons, hkw]
        omega
    · have hkw' : hasKw c w = false := by
        cases hb : hasKw c w
        · rfl
        · exact absurd hb hkw
      constructor
      · rw [hr.1, hc.1, if_neg hkw]
        simp [List.filter_cons, hkw']
      · rw [hr.2, hc.2, if_neg hkw]
        simp [List.filter_cons, hkw']

/- Ids of stored chunks are consecutive positions, and each chunk carries
the keyword map extracted from its own text. -/

theorem chunkLoopAux_mem_shape (content : Str) :
    ∀ (fuel start nextId : Nat), ∀ c ∈ chunkLoopAux content fuel start nextId,
      c.keywords = extractKeywords c.text ∧ c.text = chunkText content c.start ∧
        c.stop = chunkEnd content c.start ∧ 30 < c.text.length := by
  intro fuel
  induction fuel with
  | zero => intro start nextId c hc; simp [chunkLoopAux] at hc
  | succ n ih =>
    intro start nextId c hc
    simp only [chunkLoopAux] at hc
    by_cases hlt : start < content.length
    · rw [if_pos hlt] at hc
      by_cases hbr : content.length - 30 ≤ nextStart content start
      · rw [if_pos hbr] at hc
        obtain ⟨hceq, hlen⟩ := chunkStored_mem content start nextId c hc
        subst hceq
        exact ⟨rfl, rfl, rfl, hlen⟩
      · rw [if_neg hbr, List.mem_append] at hc
        rcases hc with hc | hc
        · obtain ⟨hceq, hlen⟩ := chunkStored_mem content start nextId c hc
          subst hceq
          exact ⟨rfl, rfl, rfl, hlen⟩
        · exact ih _ _ c hc
    · rw [if_neg hlt] at hc
      simp at hc

theorem chunkLoopAux_ids (content : Str) :
    ∀ (fuel start nextId : Nat),
      (chunkLoopAux content fuel start nextId).map Chunk.id =
        List.range' nextId (chunkLoopAux content fuel start nextId).length := by
  intro fuel
  induction fuel with
  | zero => intro start nextId; simp [chunkLoopAux]
  | succ n ih =>
    intro start nextId
    simp only [chunkLoopAux]
    by_cases hlt : start < content.length
    · rw [if_pos hlt]
      by_cases hbr : content.length - 30 ≤ nextStart content start
      · rw [if_pos hbr]
        unfold chunkStored
        split
        · simp [List.range'_succ]
        · simp
      · rw [if_neg hbr]
        unfold chunkStored
        split
        · simp only [List.singleton_append, List.map_cons, List.length_cons,
            List.length_singleton, List.length_nil, Nat.zero_add]
          rw [List.range'_succ]
          rw [ih (nextStart content start) (nextId + 1)]
        · simp only [List.nil_append, List.length_nil, Nat.add_zero]
          exact ih (nextStart content start) nextId
    · rw [if_neg hlt]
      simp

theorem createChunks_pairwise_id (t : Str) :
    List.Pairwise (fun a b : Chunk => a.id < b.id) (createChunks t) := by
  have h := chunkLoopAux_ids t 5000 0 0
  have hp : List.Pairwise (fun a b : Nat => a < b) ((createChunks t).map Chunk.id) := by
    unfold createChunks
    rw [h]
    exact List.pairwise_lt_range' 0 _
  exact (List.pairwise_map).mp hp

theorem createChunks_get_id (t : Str) (i : Nat) (c : Chunk)
    (h : (createChunks t)[i]? = some c) : c.id = i := by
  have hm : (createChunks t).map Chunk.id = List.range' 0 (createChunks t).length :=
    chunkLoopAux_ids t 5000 0 0
  have h1 : ((createChunks t).map Chunk.id)[i]? = some c.id := by
    rw [List.getElem?_map, h]
    rfl
  rw [hm] at h1
  obtain ⟨hlt, he⟩ := List.getElem?_eq_some_iff.mp h1
  rw [List.getElem_range'] at he
  omega

theorem createChunks_getElem_of_mem (t : Str) (c : Chunk) (hc : c ∈ createChunks t) :
    (createChunks t)[c.id]? = some c := by
  obtain ⟨i, hi, hget⟩ := List.getElem_of_mem hc
  have hq : (createChunks t)[i]? = some c := by
    rw [List.getElem?_eq_some_iff]
    exact ⟨hi, hget⟩
  have hid : c.id = i := createChunks_get_id t i c hq
  rw [hid]
  exact hq

/-- C10: after every rebuild on non-empty messages, each term's document
frequency equals the length of its posting list, the posting list is
exactly the ids of the distinct chunks whose keyword map contains the
term (in document order), and it is strictly ascending. -/
theorem claim_C10 (msgs : List Msg) (st : ChatIndexer) (w : Str)
    (hne : msgs ≠ []) (hst : st = (ChatIndexer.init.indexConversation (some msgs)).2) :
    dfGet st.documentFrequency w = (postGet st.keywordIndex w).length ∧
      postGet st.keywordIndex w = (st.chunks.filter (fun c => hasKw c w)).map Chunk.id ∧
      List.Chain' (fun a b : Nat => a < b) (postGet st.keywordIndex w) := by
  subst hst
  rw [indexConversation_nonempty _ _ hne]
  have hnd : ∀ c ∈ createChunks (transcript msgs), (c.keywords.map Prod.fst).Nodup := by
    intro c hc
    have := (chunkLoopAux_mem_shape (transcript msgs) 5000 0 0 c hc).1
    rw [this]
    exact extractKeywords_keys_nodup c.text
  have hspec := buildIndex_spec w (createChunks (transcript msgs)) ([], []) hnd
  unfold buildKeywordIndex
  have hpost :
      postGet ((createChunks (transcript msgs)).foldl addChunkToIndex ([], [])).1 w =
        ((createChunks (transcript msgs)).filter (fun c => hasKw c w)).map Chunk.id := by
    rw [hspec.1]
    simp [postGet]
  have hdf :
      dfGet ((createChunks (transcript msgs)).foldl addChunkToIndex ([], [])).2 w =
        ((createChunks (transcript msgs)).filter (fun c => hasKw c w)).length := by
    rw [hspec.2]
    simp [dfGet]
  refine ⟨?_, hpost, ?_⟩
  · rw [hdf, hpost, List.length_map]
  · rw [hpost]
    have hpw : List.Pairwise (fun a b : Nat => a < b)
        (((createChunks (transcript msgs)).filter (fun c => hasKw c w)).map Chunk.id) := by
      rw [List.pairwise_map]
      exact (createChunks_pairwise_id (transcript msgs)).filter _
    exact hpw.chain'

/-- Witness for C10 on the one-chunk conversation and the term
`elephant` (df 1, posting list [0]). -/
theorem claim_C10_witness :
    ([msgSmall] ≠ ([] : List Msg)) ∧
      (dfGet stSmall.documentFrequency wElephant =
          (postGet stSmall.keywordIndex wElephant).length ∧
        postGet stSmall.keywordIndex wElephant =
          (stSmall.chunks.filter (fun c => hasKw c wElephant)).map Chunk.id ∧
        List.Chain' (fun a b : Nat => a < b) (postGet stSmall.keywordIndex wElephant)) :=
  ⟨by simp, claim_C10 [msgSmall] stSmall wElephant (by simp) rfl⟩

/- Score algebra: the accumulation loop of `search` is a sum of per-term
contributions, zero for terms absent from the chunk. -/

theorem lookup_mem {β : Type} : ∀ (m : List (Str × β)) (w : Str) (v : β),
    List.lookup w m = some v → (w, v) ∈ m := by
  intro m
  induction m with
  | nil => intro w v h; simp [List.lookup] at h
  | cons p rest ih =>
    intro w v h
    rcases p with ⟨k, u⟩
    by_cases hk : w = k
    · subst hk
      rw [lookup_cons_self] at h
      cases h
      simp
    · rw [lookup_cons_ne k w u rest hk] at h
      simp [ih w v h]

theorem scoreStep_eq (N : Nat) (df : List (Str × Nat)) (c : Chunk) (acc : ℝ)
    (p : Str × Nat) : scoreStep N df c acc p = acc + termContrib N df c p := by
  unfold scoreStep termContrib
  cases c.keywords.lookup p.1 <;> simp

theorem foldl_scoreStep (N : Nat) (df : List (Str × Nat)) (c : Chunk) :
    ∀ (qk : List (Str × Nat)) (acc : ℝ),
      qk.foldl (scoreStep N df c) acc = acc + (qk.map (termContrib N df c)).sum := by
  intro qk
  induction qk with
  | nil => intro acc; simp
  | cons p rest ih =>
    intro acc
    rw [List.foldl_cons, scoreStep_eq, ih]
    simp [add_assoc]

theorem chunkScore_eq (N : Nat) (df : List (Str × Nat)) (qk : List (Str × Nat)) (c : Chunk) :
    chunkScore N df qk c =
      (qk.map (termContrib N df c)).sum * (1 + ((c.id : ℝ) / (N : ℝ)) * 0.3) := by
  unfold chunkScore
  rw [foldl_scoreStep]
  simp

theorem termContrib_absent (N : Nat) (df : List (Str × Nat)) (c : Chunk) (p : Str × Nat)
    (h : c.keywords.lookup p.1 = none) : termContrib N df c p = 0 := by
  unfold termContrib
  rw [h]

theorem chunkScore_zero (N : Nat) (df : List (Str × Nat)) (qk : List (Str × Nat)) (c : Chunk)
    (h : ∀ p ∈ qk, c.keywords.lookup p.1 = none) : chunkScore N df qk c = 0 := by
  rw [chunkScore_eq]
  have hz : (qk.map (termContrib N df c)).sum = 0 := by
    apply List.sum_eq_zero
    intro x hx
    obtain ⟨p, hp, rfl⟩ := List.mem_map.mp hx
    exact termContrib_absent N df c p (h p hp)
  rw [hz, zero_mul]

theorem chunkScore_zero_of_uniform (N : Nat) (df : List (Str × Nat)) (qk : List (Str × Nat))
    (c : Chunk) (hN : N ≠ 0)
    (h : ∀ p ∈ qk, c.keywords.lookup p.1 = none ∨ jsOr1 (df.lookup p.1) = N) :
    chunkScore N df qk c = 0 := by
  rw [chunkScore_eq]
  have hz : (qk.map (termContrib N df c)).sum = 0 := by
    apply List.sum_eq_zero
    intro x hx
    obtain ⟨p, hp, rfl⟩ := List.mem_map.mp hx
    rcases h p hp with h1 | h1
    · exact termContrib_absent N df c p h1
    · unfold termContrib
      cases hl : c.keywords.lookup p.1 with
      | none => rfl
      | some tf =>
        rw [h1]
        have : ((N : ℝ) / (N : ℝ)) = 1 := by
          rw [div_self]
          exact_mod_cast hN
        rw [this, Real.log_one]
        ring
  rw [hz, zero_mul]

theorem chunkScore_pos (N : Nat) (df : List (Str × Nat)) (qk : List (Str × Nat)) (c : Chunk)
    (hqk : qk ≠ []) (hN : 2 ≤ N)
    (hterm : ∀ p ∈ qk, ∃ tf, c.keywords.lookup p.1 = some tf ∧ 1 ≤ tf ∧ 1 ≤ p.2 ∧
      jsOr1 (df.lookup p.1) = 1) :
    0 < chunkScore N df qk c := by
  rw [chunkScore_eq]
  apply mul_pos
  · apply List.sum_pos
    · intro x hx
      obtain ⟨p, hp, rfl⟩ := List.mem_map.mp hx
      obtain ⟨tf, hl, htf, hqf, hdf⟩ := hterm p hp
      unfold termContrib
      rw [hl, hdf]
      have hlog : (0 : ℝ) < Real.log ((N : ℝ) / ((1 : Nat) : ℝ)) := by
        apply Real.log_pos
        push_cast
        rw [div_one]
        exact_mod_cast lt_of_lt_of_le (by norm_num) hN
      have htf' : (0 : ℝ) < (tf : ℝ) := by exact_mod_cast htf
      have hqf' : (0 : ℝ) < (p.2 : ℝ) := by exact_mod_cast hqf
      positivity
    · simpa using hqk
  · have h1 : (0 : ℝ) ≤ (c.id : ℝ) / (N : ℝ) := by positivity
    nlinarith

/- Unfolding the scored branch of `search`, and the behaviour of the
score map and id lookup. -/

theorem search_scored (st : ChatIndexer) (q : Str) (k : Nat)
    (h1 : st.isIndexed = true) (h2 : st.chunks ≠ []) (h3 : extractKeywords q ≠ []) :
    st.search q k =
      (mapIds st
          ((List.insertionSort (fun a b : Nat × ℝ => b.2 ≤ a.2)
            (scoreList st (extractKeywords q))).take k)).map
        (List.insertionSort (fun a b : Chunk => a.start ≤ b.start)) := by
  have hneg : ¬ (st.isIndexed = false ∨ st.chunks.length = 0) := by
    simp [h1, List.length_eq_zero, h2]
  have hemp : (extractKeywords q).isEmpty = false := by
    simp [List.isEmpty_iff, h3]
  unfold ChatIndexer.search
  rw [if_neg hneg]
  simp only [hemp, Bool.false_eq_true, if_false]

theorem scoreList_nil_of_zero (st : ChatIndexer) (qk : List (Str × Nat))
    (h : ∀ c ∈ st.chunks,
      chunkScore st.chunks.length st.documentFrequency qk c = 0) :
    scoreList st qk = [] := by
  unfold scoreList
  rw [List.filterMap_eq_nil_iff]
  intro c hc
  simp only
  rw [h c hc]
  exact if_neg (lt_irrefl 0)

theorem search_of_scoreList_nil (st : ChatIndexer) (q : Str) (k : Nat)
    (h1 : st.isIndexed = true) (h2 : st.chunks ≠ []) (h3 : extractKeywords q ≠ [])
    (hnil : scoreList st (extractKeywords q) = []) : st.search q k = some [] := by
  rw [search_scored st q k h1 h2 h3, hnil]
  simp [mapIds, List.insertionSort]

/-- Counterexample to C1 as stated: in the (reachable) single-chunk state
`stSmall` the query `elephant` occurs in exactly one chunk — the only
one — yet `search` computes `idf = ln(1/1) = 0`, every score is 0, and
the results are empty instead of ranking that chunk positively. -/
theorem claim_C1_cex :
    extractKeywords wElephant ≠ [] ∧
      stSmall.chunks.length = 1 ∧
      (∀ w ∈ (extractKeywords wElephant).map Prod.fst,
        (stSmall.chunks.filter (fun c => hasKw c w)).length = 1) ∧
      stSmall.search wElephant 4 = some [] := by
  have huni : ∀ c ∈ stSmall.chunks, ∀ p ∈ extractKeywords wElephant,
      c.keywords.lookup p.1 = none ∨
        jsOr1 (stSmall.documentFrequency.lookup p.1) = stSmall.chunks.length := by
    decide
  refine ⟨by decide, by decide, by decide, ?_⟩
  apply search_of_scoreList_nil stSmall wElephant 4 (by decide) (by decide) (by decide)
  apply scoreList_nil_of_zero
  intro c hc
  apply chunkScore_zero_of_uniform _ _ _ _ (by decide)
  intro p hp
  exact huni c hc p hp

/- Helper lemmas for the unique-keyword ranking analysis (C1). -/

theorem indexConversation_snd (st : ChatIndexer) (msgs : List Msg) (h : msgs ≠ []) :
    (st.indexConversation (some msgs)).2 = indexedState (transcript msgs) := by
  rw [indexConversation_nonempty st msgs h]
  rfl

theorem indexedState_chunks (t : Str) : (indexedState t).chunks = createChunks t := rfl

theorem indexedState_df (t : Str) :
    (indexedState t).documentFrequency = (buildKeywordIndex (createChunks t)).2 := rfl

theorem filter_eq_single {α : Type} (p : α → Bool) :
    ∀ (l : List α) (c : α), c ∈ l → p c = true → (∀ x ∈ l, x ≠ c → p x = false) →
      l.Nodup → l.filter p = [c] := by
  intro l
  induction l with
  | nil => intro c hc _ _ _; simp at hc
  | cons a rest ih =>
    intro c hc hpc hothers hnd
    rw [List.nodup_cons] at hnd
    rcases List.mem_cons.mp hc with rfl | hcr
    · rw [List.filter_cons, if_pos (by simp [hpc])]
      have hrest : rest.filter p = [] := by
        rw [List.filter_eq_nil_iff]
        intro x hx
        have hxc : x ≠ c := fun he => hnd.1 (he ▸ hx)
        simp [hothers x (List.mem_cons_of_mem _ hx) hxc]
      rw [hrest]
    · have hac : a ≠ c := fun he => hnd.1 (he ▸ hcr)
      rw [List.filter_cons, if_neg (by simp [hothers a (by simp) hac])]
      exact ih c hcr hpc (fun x hx => hothers x (List.mem_cons_of_mem _ hx)) hnd.2

theorem filterMap_eq_single {α β : Type} (f : α → Option β) :
    ∀ (l : List α) (c : α) (b : β), c ∈ l → f c = some b →
      (∀ x ∈ l, x ≠ c → f x = none) → l.Nodup → l.filterMap f = [b] := by
  intro l
  induction l with
  | nil => intro c b hc _ _ _; simp at hc
  | cons a rest ih =>
    intro c b hc hfc hothers hnd
    rw [List.nodup_cons] at hnd
    rcases List.mem_cons.mp hc with rfl | hcr
    · rw [List.filterMap_cons, hfc]
      have hrest : rest.filterMap f = [] := by
        rw [List.filterMap_eq_nil_iff]
        intro x hx
        have hxc : x ≠ c := fun he => hnd.1 (he ▸ hx)
        exact hothers x (List.mem_cons_of_mem _ hx) hxc
      rw [hrest]
    · have hac : a ≠ c := fun he => hnd.1 (he ▸ hcr)
      rw [List.filterMap_cons, hothers a (by simp) hac]
      exact ih c b hcr hfc (fun x hx => hothers x (List.mem_cons_of_mem _ hx)) hnd.2

theorem mapIds_mem (st : ChatIndexer) :
    ∀ (ps : List (Nat × ℝ)) (res : List Chunk), mapIds st ps = some res →
      ∀ c ∈ res, ∃ p ∈ ps, st.chunks[p.1]? = some c := by
  intro ps
  induction ps with
  | nil =>
    intro res h c hc
    unfold mapIds at h
    cases h
    simp at hc
  | cons p rest ih =>
    intro res h c hc
    unfold mapIds at h
    cases hg : st.chunks[p.1]? with
    | none => rw [hg] at h; cases h
    | some c0 =>
      rw [hg] at h
      rw [Option.map_eq_some'] at h
      obtain ⟨l, hl, hres⟩ := h
      subst hres
      rcases List.mem_cons.mp hc with rfl | hcl
      · exact ⟨p, by simp, hg⟩
      · obtain ⟨p', hp', hg'⟩ := ih l hl c hcl
        exact ⟨p', by simp [hp'], hg'⟩

theorem mapIds_isSome (st : ChatIndexer) :
    ∀ (ps : List (Nat × ℝ)), (∀ p ∈ ps, (st.chunks[p.1]?).isSome = true) →
      (mapIds st ps).isSome = true := by
  intro ps
  induction ps with
  | nil => intro _; rfl
  | cons p rest ih =>
    intro h
    unfold mapIds
    cases hg : st.chunks[p.1]? with
    | none =>
      have := h p (by simp)
      rw [hg] at this
      cases this
    | some c0 =>
      have hrec := ih (fun p' hp' => h p' (by simp [hp']))
      rw [Option.isSome_iff_exists] at hrec
      obtain ⟨l, hl⟩ := hrec
      rw [hl]
      rfl

theorem mapIds_length (st : ChatIndexer) :
    ∀ (ps : List (Nat × ℝ)) (res : List Chunk), mapIds st ps = some res →
      res.length = ps.length := by
  intro ps
  induction ps with
  | nil => intro res h; unfold mapIds at h; cases h; rfl
  | cons p rest ih =>
    intro res h
    unfold mapIds at h
    cases hg : st.chunks[p.1]? with
    | none => rw [hg] at h; cases h
    | some c0 =>
      rw [hg, Option.map_eq_some'] at h
      obtain ⟨l, hl, hres⟩ := h
      subst hres
      simp [ih l hl]

theorem mapIds_singleton (st : ChatIndexer) (p : Nat × ℝ) (c : Chunk)
    (h : st.chunks[p.1]? = some c) : mapIds st [p] = some [c] := by
  unfold mapIds
  rw [h]
  rfl

/- Every keyword frequency recorded by `extractKeywords` is at least 1. -/

theorem bump_val_pos (m : List (Str × Nat)) (w : Str) (h : ∀ p ∈ m, 1 ≤ p.2) :
    ∀ p ∈ bump m w, 1 ≤ p.2 := by
  intro p hp
  unfold bump at hp
  by_cases hm : (List.lookup w m).isSome
  · rw [if_pos hm] at hp
    obtain ⟨q, hq, hfq⟩ := List.mem_map.mp hp
    by_cases hqw : q.1 = w
    · rw [if_pos hqw] at hfq
      rw [← hfq]
      simp
    · rw [if_neg hqw] at hfq
      rw [← hfq]
      exact h q hq
  · rw [if_neg hm] at hp
    rcases List.mem_append.mp hp with h1 | h1
    · exact h p h1
    · simp at h1
      rw [h1]

theorem foldl_bump_val_pos :
    ∀ (ws : List Str) (m : List (Str × Nat)), (∀ p ∈ m, 1 ≤ p.2) →
      ∀ p ∈ ws.foldl bump m, 1 ≤ p.2 := by
  intro ws
  induction ws with
  | nil => intro m h; exact h
  | cons v rest ih => intro m h; exact ih (bump m v) (bump_val_pos m v h)

theorem extractKeywords_val_pos (t : Str) : ∀ p ∈ extractKeywords t, 1 ≤ p.2 := by
  unfold extractKeywords
  exact foldl_bump_val_pos _ [] (by simp)

theorem createChunks_nodup (t : Str) : (createChunks t).Nodup :=
  (createChunks_pairwise_id t).imp fun hab he => absurd (congrArg Chunk.id he) (Nat.ne_of_lt hab)

/-- When one chunk is the only one whose keyword map contains `w`, the
rebuilt document frequency of `w` is exactly 1 (and `x || 1` keeps it). -/
theorem df_of_unique (t w : Str) (c : Chunk)
    (hmem : c ∈ createChunks t) (hc : (c.keywords.lookup w).isSome = true)
    (hothers : ∀ c' ∈ createChunks t, c' ≠ c → c'.keywords.lookup w = none) :
    jsOr1 ((buildKeywordIndex (createChunks t)).2.lookup w) = 1 := by
  have hnd : ∀ c' ∈ createChunks t, (c'.keywords.map Prod.fst).Nodup := by
    intro c' hc'
    have := (chunkLoopAux_mem_shape t 5000 0 0 c' hc').1
    rw [this]
    exact extractKeywords_keys_nodup c'.text
  have hspec := (buildIndex_spec w (createChunks t) ([], []) hnd).2
  have hfil : (createChunks t).filter (fun c' => hasKw c' w) = [c] := by
    apply filter_eq_single _ _ c hmem
    · unfold hasKw
      exact hc
    · intro x hx hxc
      unfold hasKw
      rw [hothers x hx hxc]
      rfl
    · exact createChunks_nodup t
  have hdf : dfGet (buildKeywordIndex (createChunks t)).2 w = 1 := by
    unfold buildKeywordIndex
    rw [hspec, hfil]
    simp [dfGet]
  unfold dfGet at hdf
  cases hl : List.lookup w (buildKeywordIndex (createChunks t)).2 with
  | none =>
    rw [hl] at hdf
    simp at hdf
  | some v =>
    rw [hl] at hdf
    simp at hdf
    rw [hdf]
    rfl

theorem search_unique_core (t q : Str) (k : Nat) (c : Chunk)
    (hN : 2 ≤ (createChunks t).length) (hk : 1 ≤ k) (hq : extractKeywords q ≠ [])
    (hmem : c ∈ createChunks t)
    (huniq : ∀ w ∈ (extractKeywords q).map Prod.fst,
      (c.keywords.lookup w).isSome = true ∧
        ∀ c' ∈ createChunks t, c' ≠ c → c'.keywords.lookup w = none) :
    (indexedState t).search q k = some [c] := by
  have hchne : (indexedState t).chunks ≠ [] := by
    show createChunks t ≠ []
    intro h0
    rw [h0] at hN
    simp at hN
  have hzero : ∀ c' ∈ createChunks t, c' ≠ c →
      chunkScore (createChunks t).length (buildKeywordIndex (createChunks t)).2
        (extractKeywords q) c' = 0 := by
    intro c' hc' hne'
    apply chunkScore_zero
    intro p hp
    exact (huniq p.1 (List.mem_map_of_mem _ hp)).2 c' hc' hne'
  have hpos : 0 < chunkScore (createChunks t).length (buildKeywordIndex (createChunks t)).2
      (extractKeywords q) c := by
    apply chunkScore_pos _ _ _ _ hq hN
    intro p hp
    have h1 := (huniq p.1 (List.mem_map_of_mem _ hp)).1
    obtain ⟨tf, htf⟩ := Option.isSome_iff_exists.mp h1
    refine ⟨tf, htf, ?_, ?_, ?_⟩
    · have hmemkv := lookup_mem _ _ _ htf
      have hkw := (chunkLoopAux_mem_shape t 5000 0 0 c hmem).1
      rw [hkw] at hmemkv
      exact extractKeywords_val_pos c.text (p.1, tf) hmemkv
    · exact extractKeywords_val_pos q p hp
    · exact df_of_unique t p.1 c hmem h1
        (fun c' h' hne' => (huniq p.1 (List.mem_map_of_mem _ hp)).2 c' h' hne')
  have hsl : scoreList (indexedState t) (extractKeywords q) =
      [(c.id, chunkScore (createChunks t).length (buildKeywordIndex (createChunks t)).2
        (extractKeywords q) c)] := by
    unfold scoreList
    simp only [indexedState_chunks, indexedState_df]
    apply filterMap_eq_single _ _ c _ hmem
    · rw [if_pos hpos]
    · intro x hx hxne
      rw [hzero x hx hxne]
      exact if_neg (lt_irrefl 0)
    · exact createChunks_nodup t
  rw [search_scored _ _ _ rfl hchne hq, hsl]
  have hsort1 : List.insertionSort (fun a b : Nat × ℝ => b.2 ≤ a.2)
      [(c.id, chunkScore (createChunks t).length (buildKeywordIndex (createChunks t)).2
        (extractKeywords q) c)] =
      [(c.id, chunkScore (createChunks t).length (buildKeywordIndex (createChunks t)).2
        (extractKeywords q) c)] := by
    simp [List.insertionSort, List.orderedInsert]
  rw [hsort1, List.take_of_length_le (by simpa using hk)]
  rw [mapIds_singleton _ _ c (createChunks_getElem_of_mem t c hmem)]
  simp [List.insertionSort, List.orderedInsert]

theorem search_excludes_core (t q : Str) (k : Nat) (c' : Chunk) (res : List Chunk)
    (hq : extractKeywords q ≠ [])
    (hnokw : ∀ w ∈ (extractKeywords q).map Prod.fst, c'.keywords.lookup w = none)
    (hres : (indexedState t).search q k = some res) : c' ∉ res := by
  intro hcmem
  by_cases hch : createChunks t = []
  · have hguard : (indexedState t).search q k = some [] := by
      apply search_guard
      right
      show (createChunks t).length = 0
      rw [hch]
      rfl
    rw [hguard] at hres
    cases hres
    simp at hcmem
  · rw [search_scored _ _ _ rfl hch hq] at hres
    rw [Option.map_eq_some'] at hres
    obtain ⟨picked, hpicked, hres'⟩ := hres
    subst hres'
    rw [List.mem_insertionSort] at hcmem
    obtain ⟨p, hp, hg⟩ := mapIds_mem _ _ _ hpicked c' hcmem
    have hp2 : p ∈ scoreList (indexedState t) (extractKeywords q) :=
      (List.mem_insertionSort _).mp (List.mem_of_mem_take hp)
    obtain ⟨c₀, hc₀, hfc₀⟩ := List.mem_filterMap.mp hp2
    simp only [indexedState_chunks] at hc₀ hg
    simp only [indexedState_chunks, indexedState_df] at hfc₀
    by_cases hpos : 0 < chunkScore (createChunks t).length
        (buildKeywordIndex (createChunks t)).2 (extractKeywords q) c₀
    · rw [if_pos hpos] at hfc₀
      have hpeq := (Option.some.inj hfc₀).symm
      subst hpeq
      have hgc := createChunks_getElem_of_mem t c₀ hc₀
      have hcc : c₀ = c' := by
        rw [hgc] at hg
        exact Option.some.inj hg
      subst hcc
      have hzero : chunkScore (createChunks t).length
          (buildKeywordIndex (createChunks t)).2 (extractKeywords q) c₀ = 0 := by
        apply chunkScore_zero
        intro p' hp'
        exact hnokw p'.1 (List.mem_map_of_mem _ hp')
      rw [hzero] at hpos
      exact lt_irrefl 0 hpos
    · rw [if_neg hpos] at hfc₀
      cases hfc₀

/-- C1 (amended): in a state built by `indexConversation` holding at
least two chunks, with `topK ≥ 1`, a query whose keywords all occur in
exactly one chunk makes `search` return exactly that chunk (its score is
strictly positive, every other chunk scores 0 and is excluded); and, in
general, a chunk containing none of the query keywords never appears in
the results of the scored branch.  With a single chunk the claim fails:
`idf = ln(1/1) = 0` zeroes every score (see the counterexample). -/
theorem claim_C1 :
    (∀ (msgs : List Msg) (q : Str) (k : Nat) (st : ChatIndexer) (c : Chunk),
      msgs ≠ [] → st = (ChatIndexer.init.indexConversation (some msgs)).2 →
      2 ≤ st.chunks.length → 1 ≤ k → extractKeywords q ≠ [] → c ∈ st.chunks →
      (∀ w ∈ (extractKeywords q).map Prod.fst,
        (c.keywords.lookup w).isSome = true ∧
          ∀ c' ∈ st.chunks, c' ≠ c → c'.keywords.lookup w = none) →
      st.search q k = some [c]) ∧
    (∀ (msgs : List Msg) (q : Str) (k : Nat) (st : ChatIndexer) (c' : Chunk)
        (res : List Chunk),
      msgs ≠ [] → st = (ChatIndexer.init.indexConversation (some msgs)).2 →
      extractKeywords q ≠ [] →
      (∀ w ∈ (extractKeywords q).map Prod.fst, c'.keywords.lookup w = none) →
      st.search q k = some res → c' ∉ res) := by
  constructor
  · intro msgs q k st c hne hst hN hk hq hmem huniq
    rw [indexConversation_snd _ _ hne] at hst
    subst hst
    exact search_unique_core (transcript msgs) q k c hN hk hq hmem huniq
  · intro msgs q k st c' res hne hst hq hnokw hres
    rw [indexConversation_snd _ _ hne] at hst
    subst hst
    exact search_excludes_core (transcript msgs) q k c' res hq hnokw hres

/-- Witness for C1 on the two-chunk conversation `msgC1` and query
`zebra`, which occurs only in the first chunk. -/
theorem claim_C1_witness :
    (([msgC1] ≠ ([] : List Msg)) ∧ 2 ≤ stC1.chunks.length ∧ 1 ≤ 1 ∧
      extractKeywords qZebra ≠ [] ∧ cZebra ∈ stC1.chunks ∧
      (∀ w ∈ (extractKeywords qZebra).map Prod.fst,
        (cZebra.keywords.lookup w).isSome = true ∧
          ∀ c' ∈ stC1.chunks, c' ≠ cZebra → c'.keywords.lookup w = none)) ∧
      stC1.search qZebra 1 = some [cZebra] := by
  refine ⟨⟨by simp, by decide, le_refl 1, by decide, by decide, by decide⟩, ?_⟩
  exact claim_C1.1 [msgC1] qZebra 1 stC1 cZebra (by simp) rfl (by decide) (le_refl 1)
    (by decide) (by decide) (by decide)

/- Totality (C9): every reachable state is well-formed, and `search` and
`getContextForQuery` never hit the one fallible operation. -/

theorem reachable_chunks_getElem (st : ChatIndexer) (h : Reachable st) :
    ∀ c ∈ st.chunks, st.chunks[c.id]? = some c := by
  induction h with
  | init => intro c hc; simp [ChatIndexer.init] at hc
  | cleared st' hr ih => intro c hc; simp [ChatIndexer.clear] at hc
  | index st' o hr ih =>
    match o with
    | none => exact ih
    | some msgs =>
      cases msgs with
      | nil => exact ih
      | cons m ms =>
        intro c hc
        rw [indexConversation_snd st' (m :: ms) (by simp)] at hc ⊢
        rw [indexedState_chunks] at hc ⊢
        exact createChunks_getElem_of_mem _ c hc

theorem search_isSome (st : ChatIndexer) (q : Str) (k : Nat)
    (hWF : ∀ c ∈ st.chunks, st.chunks[c.id]? = some c) :
    (st.search q k).isSome = true := by
  by_cases hguard : st.isIndexed = false ∨ st.chunks.length = 0
  · rw [search_guard st q k hguard]
    rfl
  · have h1 : st.isIndexed = true := by
      cases hb : st.isIndexed
      · exact absurd (Or.inl hb) hguard
      · rfl
    have h2 : st.chunks ≠ [] := by
      intro h0
      exact hguard (Or.inr (by rw [h0]; rfl))
    by_cases hq : extractKeywords q = []
    · rw [search_fallback st q k h1 h2 hq]
      rfl
    · rw [search_scored st q k h1 h2 hq]
      have hm : (mapIds st
          ((List.insertionSort (fun a b : Nat × ℝ => b.2 ≤ a.2)
            (scoreList st (extractKeywords q))).take k)).isSome = true := by
        apply mapIds_isSome
        intro p hp
        have hp2 : p ∈ scoreList st (extractKeywords q) :=
          (List.mem_insertionSort _).mp (List.mem_of_mem_take hp)
        obtain ⟨c₀, hc₀, hfc₀⟩ := List.mem_filterMap.mp hp2
        by_cases hpos : 0 < chunkScore st.chunks.length st.documentFrequency
            (extractKeywords q) c₀
        · rw [if_pos hpos] at hfc₀
          have hpeq := (Option.some.inj hfc₀).symm
          subst hpeq
          rw [hWF c₀ hc₀]
          rfl
        · rw [if_neg hpos] at hfc₀
          cases hfc₀
      obtain ⟨l, hl⟩ := Option.isSome_iff_exists.mp hm
      rw [hl]
      rfl

/-- C9: every reachable engine state is safe: `search` and
`getContextForQuery` always return a value (never the failure marker),
and an unindexed state degrades to the empty default.
`indexConversation` and `clear` are total by construction. -/
theorem claim_C9 (st : ChatIndexer) (h : Reachable st) (q : Str) (k : Nat) :
    (st.search q k).isSome = true ∧ (st.getContextForQuery q).isSome = true ∧
      (st.isIndexed = false → st.search q k = some []) := by
  have hWF := reachable_chunks_getElem st h
  refine ⟨search_isSome st q k hWF, ?_, ?_⟩
  · unfold ChatIndexer.getContextForQuery
    obtain ⟨l, hl⟩ := Option.isSome_iff_exists.mp (search_isSome st q TOP_K hWF)
    rw [hl]
    rfl
  · intro hfalse
    exact search_guard st q k (Or.inl hfalse)

/-- Witness for C9 at the initial (reachable) state. -/
theorem claim_C9_witness :
    (ChatIndexer.init.search [] 4).isSome = true ∧
      (ChatIndexer.init.getContextForQuery []).isSome = true ∧
      (ChatIndexer.init.isIndexed = false → ChatIndexer.init.search [] 4 = some []) :=
  claim_C9 ChatIndexer.init Reachable.init [] 4

/- Bounds for the boundary-snapped chunk end: a break position found by
`lastIndexOf` is at most the search limit, and the snap adjustment adds
at most the longest marker (14 characters). -/

theorem lastScan_le (needle : Str) (limit : Nat) :
    ∀ (s : Str) (i : Nat) (best : Option Nat),
      (∀ j, best = some j → j ≤ limit) →
      ∀ j, lastScan needle limit s i best = some j → j ≤ limit := by
  intro s
  induction s with
  | nil =>
    intro i best hbest j hj
    unfold lastScan at hj
    by_cases hc : (needle.isPrefixOf [] && decide (i ≤ limit)) = true
    · rw [if_pos hc] at hj
      cases hj
      rw [Bool.and_eq_true] at hc
      exact of_decide_eq_true hc.2
    · rw [if_neg hc] at hj
      exact hbest j hj
  | cons c rest ih =>
    intro i best hbest j hj
    unfold lastScan at hj
    refine ih (i + 1) _ ?_ j hj
    intro j' hj'
    by_cases hc : (needle.isPrefixOf (c :: rest) && decide (i ≤ limit)) = true
    · rw [if_pos hc] at hj'
      cases hj'
      rw [Bool.and_eq_true] at hc
      exact of_decide_eq_true hc.2
    · rw [if_neg hc] at hj'
      exact hbest j' hj'

theorem jsLastIndexOf_le (s needle : Str) (limit j : Nat)
    (h : jsLastIndexOf s needle limit = some j) : j ≤ limit := by
  refine lastScan_le needle limit s 0 none ?_ j h
  intro j' hj'
  cases hj'

theorem breakStep_le (content : Str) (ss endPos : Nat) (b : Int) (bp : Str)
    (hb : b ≤ (endPos : Int) + 14)
    (hbp : (if bp = dotSp then 2 else (bp.length : Int)) ≤ 14) :
    (match jsLastIndexOf content bp endPos with
      | none => b
      | some pos =>
        if ss < pos ∧ b < (pos : Int) then
          (pos : Int) + (if bp = dotSp then 2 else (bp.length : Int))
        else b) ≤ (endPos : Int) + 14 := by
  cases hfind : jsLastIndexOf content bp endPos with
  | none => exact hb
  | some pos =>
    show (if ss < pos ∧ b < (pos : Int) then
        (pos : Int) + (if bp = dotSp then 2 else (bp.length : Int))
      else b) ≤ (endPos : Int) + 14
    by_cases hcond : ss < pos ∧ b < (pos : Int)
    · rw [if_pos hcond]
      have hple : pos ≤ endPos := jsLastIndexOf_le content bp endPos pos hfind
      omega
    · rw [if_neg hcond]
      exact hb

theorem foldBreak_le (content : Str) (ss endPos : Nat) :
    foldBreak content ss endPos ≤ (endPos : Int) + 14 := by
  unfold foldBreak
  simp only [BREAK_POINTS, List.foldl_cons, List.foldl_nil]
  apply breakStep_le _ _ _ _ _ ?_ (by decide)
  apply breakStep_le _ _ _ _ _ ?_ (by decide)
  apply breakStep_le _ _ _ _ _ ?_ (by decide)
  apply breakStep_le _ _ _ _ _ ?_ (by decide)
  omega

theorem chunkEnd_le (content : Str) (start : Nat) :
    chunkEnd content start ≤ start + CHUNK_SIZE + 14 := by
  simp only [chunkEnd]
  split
  · split
    · have hfb := foldBreak_le content (max (start + CHUNK_SIZE - 100) start)
        (min (start + CHUNK_SIZE) content.length)
      have hmin : min (start + CHUNK_SIZE) content.length ≤ start + CHUNK_SIZE :=
        Nat.min_le_left _ _
      omega
    · omega
  · omega

theorem chunkText_length_le (content : Str) (start : Nat) :
    (chunkText content start).length ≤ CHUNK_SIZE + 14 := by
  unfold chunkText
  have h1 :=
    (jsTrim_within ((content.drop start).take (chunkEnd content start - start))).sublist.length_le
  have h2 : ((content.drop start).take (chunkEnd content start - start)).length ≤
      chunkEnd content start - start := by
    simp [List.length_take]
  have h3 := chunkEnd_le content start
  omega

theorem createChunks_text_le (t : Str) (c : Chunk) (hc : c ∈ createChunks t) :
    c.text.length ≤ CHUNK_SIZE + 14 := by
  have h := (chunkLoopAux_mem_shape t 5000 0 0 c hc).2.1
  rw [h]
  exact chunkText_length_le t c.start

/- Search results are drawn from the chunk store and number at most
`topK`. -/

theorem search_mem_chunks (st : ChatIndexer) (q : Str) (k : Nat) (res : List Chunk)
    (hres : st.search q k = some res) : ∀ c ∈ res, c ∈ st.chunks := by
  by_cases hguard : st.isIndexed = false ∨ st.chunks.length = 0
  · rw [search_guard st q k hguard] at hres
    cases hres
    intro c hc
    simp at hc
  · have h1 : st.isIndexed = true := by
      cases hb : st.isIndexed
      · exact absurd (Or.inl hb) hguard
      · rfl
    have h2 : st.chunks ≠ [] := by
      intro h0
      exact hguard (Or.inr (by rw [h0]; rfl))
    by_cases hq : extractKeywords q = []
    · rw [search_fallback st q k h1 h2 hq] at hres
      cases hres
      intro c hc
      unfold jsSliceNeg at hc
      by_cases hk : k = 0
      · rw [if_pos hk] at hc
        exact hc
      · rw [if_neg hk] at hc
        exact List.mem_of_mem_drop hc
    · rw [search_scored st q k h1 h2 hq] at hres
      rw [Option.map_eq_some'] at hres
      obtain ⟨picked, hpicked, hres'⟩ := hres
      subst hres'
      intro c hc
      rw [List.mem_insertionSort] at hc
      obtain ⟨p, hp, hg⟩ := mapIds_mem _ _ _ hpicked c hc
      obtain ⟨hlt, he⟩ := List.getElem?_eq_some_iff.mp hg
      exact he ▸ st.chunks.getElem_mem hlt

theorem search_length_le (st : ChatIndexer) (q : Str) (k : Nat) (res : List Chunk)
    (hk : k ≠ 0) (hres : st.search q k = some res) : res.length ≤ k := by
  by_cases hguard : st.isIndexed = false ∨ st.chunks.length = 0
  · rw [search_guard st q k hguard] at hres
    cases hres
    simp
  · have h1 : st.isIndexed = true := by
      cases hb : st.isIndexed
      · exact absurd (Or.inl hb) hguard
      · rfl
    have h2 : st.chunks ≠ [] := by
      intro h0
      exact hguard (Or.inr (by rw [h0]; rfl))
    by_cases hq : extractKeywords q = []
    · rw [search_fallback st q k h1 h2 hq] at hres
      cases hres
      unfold jsSliceNeg
      rw [if_neg hk, List.length_drop]
      omega
    · rw [search_scored st q k h1 h2 hq] at hres
      rw [Option.map_eq_some'] at hres
      obtain ⟨picked, hpicked, hres'⟩ := hres
      subst hres'
      rw [List.length_insertionSort]
      rw [mapIds_length _ _ _ hpicked]
      have := List.length_take_le k (List.insertionSort (fun a b : Nat × ℝ => b.2 ≤ a.2)
        (scoreList st (extractKeywords q)))
      exact this

/- The context-assembly loop: walking a prefix that fits reaches the
folded running context, and on overflow the loop appends the exact
truncated tail then stops. -/

theorem contextLoop_append (rest' : List Chunk) :
    ∀ (pre : List Chunk) (ctx : Str), fitsAux ctx pre = true →
      contextLoop ctx (pre ++ rest') = contextLoop (pre.foldl ctxStep ctx) rest' := by
  intro pre
  induction pre with
  | nil => intro ctx _; simp
  | cons c pre' ih =>
    intro ctx h
    unfold fitsAux at h
    rw [Bool.and_eq_true] at h
    have hfit : ctx.length + c.text.length ≤ MAX_CONTEXT_CHARS := of_decide_eq_true h.1
    rw [List.cons_append]
    simp only [contextLoop]
    rw [if_neg (by omega)]
    rw [List.foldl_cons]
    exact ih (ctxStep ctx c) h.2

theorem contextLoop_overflow (ctx : Str) (c : Chunk) (rest : List Chunk)
    (hctx : ctx.length ≤ 2448) (hover : MAX_CONTEXT_CHARS < ctx.length + c.text.length) :
    contextLoop ctx (c :: rest) =
        ctx ++ nlDots ++ c.text.take (MAX_CONTEXT_CHARS - ctx.length - 10) ++ dots ∧
      (c.text.take (MAX_CONTEXT_CHARS - ctx.length - 10)).length =
        MAX_CONTEXT_CHARS - ctx.length - 10 := by
  have hmax : MAX_CONTEXT_CHARS = 3000 := rfl
  constructor
  · simp only [contextLoop]
    rw [if_pos hover, if_pos (by rw [hmax]; push_cast; omega)]
    have htn : ((MAX_CONTEXT_CHARS : Int) - (ctx.length : Int) - 10).toNat =
        MAX_CONTEXT_CHARS - ctx.length - 10 := by
      rw [hmax]
      omega
    rw [htn]
  · rw [List.length_take]
    rw [hmax] at hover ⊢
    omega

theorem foldl_ctxStep_length :
    ∀ (l : List Chunk) (s : Str), (∀ c ∈ l, c.text.length ≤ 814) →
      (l.foldl ctxStep s).length ≤ s.length + 816 * l.length := by
  intro l
  induction l with
  | nil => intro s _; simp
  | cons c rest ih =>
    intro s h
    rw [List.foldl_cons]
    have h1 := ih (ctxStep s c) (fun c' hc' => h c' (by simp [hc']))
    have h2 := ctxStep_length_le s c
    have h3 := h c (by simp)
    have h4 : rest.length + 1 = (c :: rest).length := by simp
    calc ((rest.foldl ctxStep (ctxStep s c)).length : Nat) ≤
        (ctxStep s c).length + 816 * rest.length := h1
      _ ≤ s.length + 816 * (c :: rest).length := by
        rw [← h4]
        omega

theorem joinChunks_le (pre : List Chunk) (h : ∀ c ∈ pre, c.text.length ≤ 814)
    (hlen : pre.length ≤ 3) : (joinChunks pre).length ≤ 2448 := by
  unfold joinChunks
  cases pre with
  | nil => simp
  | cons c rest =>
    rw [List.foldl_cons]
    have hstep : (ctxStep [] c).length ≤ 814 := by
      unfold ctxStep
      simp only [List.isEmpty_nil, if_true]
      exact h c (by simp)
    have hrest := foldl_ctxStep_length rest (ctxStep [] c)
      (fun c' hc' => h c' (by simp [hc']))
    have hr3 : rest.length ≤ 2 := by
      simp at hlen
      omega
    omega

/-- C4: in `getContextForQuery` on a state built by `indexConversation`,
the chunk list fed to the assembly loop has at most `TOP_K = 4` chunks of
at most 814 characters each (so whenever the loop reaches a chunk, the
running context holds at most 2448 characters and the `remaining > 50`
guard is open); and when adding the next chunk would push the context
past `MAX_CONTEXT_CHARS`, the loop appends exactly
`MAX_CONTEXT_CHARS - context.length - 10` characters of that chunk's
text followed by the ellipsis markers and stops, ignoring all further
chunks. -/
theorem claim_C4 :
    (∀ (msgs : List Msg) (q : Str) (st : ChatIndexer) (cs : List Chunk),
      msgs ≠ [] → st = (ChatIndexer.init.indexConversation (some msgs)).2 →
      st.search q TOP_K = some cs →
      st.getContextForQuery q = some (if cs.isEmpty then [] else contextLoop [] cs) ∧
        cs.length ≤ 4 ∧ ∀ c ∈ cs, c.text.length ≤ 814) ∧
    (∀ (pre : List Chunk) (c : Chunk) (rest : List Chunk),
      fitsAux [] pre = true → pre.length ≤ 3 → (∀ c' ∈ pre, c'.text.length ≤ 814) →
      MAX_CONTEXT_CHARS < (joinChunks pre).length + c.text.length →
      contextLoop [] (pre ++ c :: rest) =
          joinChunks pre ++ nlDots ++
            c.text.take (MAX_CONTEXT_CHARS - (joinChunks pre).length - 10) ++ dots ∧
        (c.text.take (MAX_CONTEXT_CHARS - (joinChunks pre).length - 10)).length =
          MAX_CONTEXT_CHARS - (joinChunks pre).length - 10) := by
  constructor
  · intro msgs q st cs hne hst hres
    refine ⟨?_, ?_, ?_⟩
    · unfold ChatIndexer.getContextForQuery
      rw [hres]
      rfl
    · exact search_length_le st q TOP_K cs (by decide) hres
    · intro c hc
      have hmem := search_mem_chunks st q TOP_K cs hres c hc
      rw [hst, indexConversation_snd _ _ hne, indexedState_chunks] at hmem
      have hle := createChunks_text_le _ c hmem
      have h8 : CHUNK_SIZE + 14 = 814 := rfl
      omega
  · intro pre c rest hfits hlen3 hb814 hover
    have hle := joinChunks_le pre hb814 hlen3
    rw [contextLoop_append (c :: rest) pre [] hfits]
    exact contextLoop_overflow (joinChunks pre) c rest hle hover

/-- Witness for C4 at three fitting 800-character chunks followed by a
fourth that overflows the 3000-character budget. -/
theorem claim_C4_witness :
    (fitsAux [] [chunkW 0, chunkW 1, chunkW 2] = true ∧
      ([chunkW 0, chunkW 1, chunkW 2] : List Chunk).length ≤ 3 ∧
      (∀ c' ∈ ([chunkW 0, chunkW 1, chunkW 2] : List Chunk), c'.text.length ≤ 814) ∧
      MAX_CONTEXT_CHARS <
        (joinChunks [chunkW 0, chunkW 1, chunkW 2]).length + (chunkW 3).text.length) ∧
      contextLoop [] ([chunkW 0, chunkW 1, chunkW 2] ++ chunkW 3 :: []) =
          joinChunks [chunkW 0, chunkW 1, chunkW 2] ++ nlDots ++
            (chunkW 3).text.take
              (MAX_CONTEXT_CHARS - (joinChunks [chunkW 0, chunkW 1, chunkW 2]).length - 10) ++
            dots ∧
        ((chunkW 3).text.take
            (MAX_CONTEXT_CHARS - (joinChunks [chunkW 0, chunkW 1, chunkW 2]).length - 10)).length =
          MAX_CONTEXT_CHARS - (joinChunks [chunkW 0, chunkW 1, chunkW 2]).length - 10 := by
  refine ⟨⟨by decide, by decide, by decide, by decide⟩, ?_⟩
  exact claim_C4.2 [chunkW 0, chunkW 1, chunkW 2] (chunkW 3) [] (by decide) (by decide)
    (by decide) (by decide)
